import Mathlib

/-!
Verification of the IsoCode agent runtime against its specification.

The development shallowly embeds the JavaScript sources:
  * `server/tools.js` (path confinement, `read_file` pagination),
  * `server/agent.js` (`resolvePathInWorkspace`, the ReAct step loop),
  * `server/context-manager.js` (token estimation, smart truncation,
    tool-result truncation, trim-to-budget, compaction).

JavaScript strings are modelled as Lean `String` with character-level
indexing; JS numbers that hold integer counts are modelled as `Nat`.
`Math.floor(m * 0.7)` and `Math.floor(m * 0.2)` are modelled bit-exactly
(`jsFloorMul`): the exact product of `m` with the binary64 constant is
rounded to 53 significant bits, nearest-ties-to-even, then floored —
`Math.floor(90 * 0.7)` really is 62, not 63.  Products with 3.5 and 1.75
(exact binary64 constants `7/2` and `7/4`) are modelled as `7 * a / 2`
and `a * 7 / 4`, exact in binary64 whenever `7·a < 2^53`, and
`Math.ceil(len / 3.5)` as `(2·len + 6) / 7`, exact for `len < 10^15`.
File systems, the LLM backend and the tool subprocesses are oracles:
their outputs are parameters of the embedded functions.
-/

set_option maxRecDepth 40000

namespace IsoCode

/-! ## Decimal rendering (model of JS template `${n}` for a non-negative integer) -/

/-- Decimal digit character for `n < 10`. -/
def digitChar (n : Nat) : Char := Char.ofNat (48 + n)

/-- Fuelled decimal conversion: digit list of `n`, most significant first.
    Correct whenever `n ≤ fuel`; `decAux fuel 0 = []`. -/
def decAux : Nat → Nat → List Char
  | 0, _ => []
  | Nat.succ _, 0 => []
  | Nat.succ fuel, n => decAux fuel (n / 10) ++ [digitChar (n % 10)]

/-- Decimal string of a natural number, as JS renders a non-negative integer. -/
def natToDecimal (n : Nat) : String :=
  if n = 0 then "0" else ⟨decAux n n⟩

/-! ## JS string primitives -/

/-- JS `s.slice(0, n)` (equally `s.substring(0, n)`), character level. -/
def strTake (s : String) (n : Nat) : String := ⟨s.data.take n⟩

/-- The last `n` characters of `s` (for `n = 0` this is `""`). -/
def strLastN (s : String) (n : Nat) : String := ⟨s.data.drop (s.data.length - n)⟩

/-- JS `s.slice(-n)` with `n ≥ 0`: JS `-0 === 0`, so `slice(-0)` is
    `slice(0)` — the whole string, not the empty suffix. -/
def jsSliceNeg (s : String) (n : Nat) : String :=
  if n = 0 then s else strLastN s n

/-- JS `s.startsWith(pre)`. -/
def jsStartsWith (s pre : String) : Bool := pre.data.isPrefixOf s.data

/-- JS `s.includes(pat)`. -/
def containsSub (s pat : String) : Bool :=
  s.data.tails.any (fun t => pat.data.isPrefixOf t)

/-- JS `String(filePath).replace(/^\/+/, '')`: drop every leading slash. -/
def stripLeadingSlashes (s : String) : String := ⟨s.data.dropWhile (fun c => c = '/')⟩

/-! ## Binary64 products with literal constants

`Math.floor(m * 0.7)` is *not* `⌊0.7·m⌋` for every `m`: the double
nearest 0.7 is slightly below 0.7, and at `m = 90, 170, 180, 330, …`
the rounded product falls just below the integer (`Math.floor(90 * 0.7)`
is 62).  The model below computes the IEEE-754 round-to-nearest-even
product of an integer `m` with a double constant `mant / 2^s` exactly,
then floors it. -/

/-- `⌊log2 n⌋` via structural fuel: correct for `n < 2^fuel` (and a lower
    bound `2^(log2Fuel fuel n) ≤ n` holds for every `n ≥ 1`). -/
def log2Fuel : Nat → Nat → Nat
  | 0, _ => 0
  | Nat.succ fuel, n => if n ≤ 1 then 0 else log2Fuel fuel (n / 2) + 1

/-- `⌊log2 n⌋` for `1 ≤ n < 2^128`, covering every double product below. -/
def natLog2 (n : Nat) : Nat := log2Fuel 128 n

/-- Round `N / 2^d` to the nearest integer, ties to even. -/
def roundNearestEven (N d : Nat) : Nat :=
  if 2 ^ d < 2 * (N % 2 ^ d) then N / 2 ^ d + 1
  else if 2 * (N % 2 ^ d) < 2 ^ d then N / 2 ^ d
  else if N / 2 ^ d % 2 = 1 then N / 2 ^ d + 1 else N / 2 ^ d

/-- `Math.floor(m * c)` where `c = mant / 2^s` is a binary64 constant
    (53-bit mantissa) and `m` an exactly representable integer.  The exact
    product is `N / 2^s` with `N = m * mant`; with `k = ⌊log2 N⌋`, if
    `k ≤ 52` the product fits 53 significant bits and the double is exact,
    otherwise `N` is rounded to 53 significant bits (nearest, ties to
    even) giving mantissa `M` and double value `M · 2^(k-52) / 2^s`, which
    is then floored. -/
def jsFloorMul (m mant s : Nat) : Nat :=
  if natLog2 (m * mant) ≤ 52 then m * mant / 2 ^ s
  else if s + 52 ≤ natLog2 (m * mant) then
    roundNearestEven (m * mant) (natLog2 (m * mant) - 52) *
      2 ^ (natLog2 (m * mant) - 52 - s)
  else
    roundNearestEven (m * mant) (natLog2 (m * mant) - 52) /
      2 ^ (s + 52 - natLog2 (m * mant))

/-- `Math.floor(m * 0.7)`: the double nearest 0.7 is
    `3152519739159347 / 2^52` (just below 0.7). -/
def floorMul07 (m : Nat) : Nat := jsFloorMul m 3152519739159347 52

/-- `Math.floor(m * 0.2)`: the double nearest 0.2 is
    `3602879701896397 / 2^54` (just above 0.2). -/
def floorMul02 (m : Nat) : Nat := jsFloorMul m 3602879701896397 54

/-! ## Posix path model (Node `path.resolve` on absolute paths)

`resolvePath` (server/tools.js) and `resolvePathInWorkspace`
(server/agent.js) both build on Node's `path.resolve`.  The model below
implements its posix semantics for an absolute base: split on `/`,
drop empty and `.` components, let `..` pop one component (at the root
it is dropped), and join back with a single leading slash. -/

/-- Split a posix path into its non-empty components; `cur` accumulates
    the current component in reverse. -/
def pathSegsAux : List Char → List Char → List (List Char)
  | [], cur => if cur.isEmpty then [] else [cur.reverse]
  | c :: cs, cur =>
    if c = '/' then
      if cur.isEmpty then pathSegsAux cs [] else cur.reverse :: pathSegsAux cs []
    else pathSegsAux cs (c :: cur)

/-- Components of a path string. -/
def pathSegs (s : String) : List (List Char) := pathSegsAux s.data []

/-- Remove `.` components. -/
def dropDots : List (List Char) → List (List Char)
  | [] => []
  | s :: rest => if s = ['.'] then dropDots rest else s :: dropDots rest

/-- Resolve `.` and `..` components; `acc` holds the output in reverse.
    A `..` above the root is dropped, as Node does for absolute paths. -/
def normSegsAux : List (List Char) → List (List Char) → List (List Char)
  | [], acc => acc.reverse
  | s :: rest, acc =>
    if s = ['.'] then normSegsAux rest acc
    else if s = ['.', '.'] then normSegsAux rest (acc.drop 1)
    else normSegsAux rest (s :: acc)

/-- Join components with `/` separators (no leading slash). -/
def joinSegs : List (List Char) → List Char
  | [] => []
  | [s] => s
  | s :: rest => s ++ '/' :: joinSegs rest

/-- Node `path.resolve(p)` for an absolute posix path `p`. -/
def normalizeAbs (s : String) : String :=
  ⟨'/' :: joinSegs (normSegsAux (pathSegs s) [])⟩

/-- Node `path.resolve(root, p)` with `root` absolute. -/
def pathResolve (root p : String) : String :=
  if jsStartsWith p "/" then normalizeAbs p else normalizeAbs (root ++ "/" ++ p)

/-- `resolvePath(filePath, workspaceRoot)` from server/tools.js: resolve
    against the workspace root, then accept exactly when the resolved
    string *starts with* the normalised root (no separator appended). -/
def resolvePath (filePath workspaceRoot : String) : Except String String :=
  let resolved := pathResolve workspaceRoot filePath
  let normalizedRoot := normalizeAbs workspaceRoot
  if jsStartsWith resolved normalizedRoot then Except.ok resolved
  else Except.error ("Security Error: Path traversal detected. Access denied to " ++ filePath)

/-- `resolvePathInWorkspace(workspaceRoot, filePath)` from server/agent.js:
    strip every leading slash from the argument, resolve against the root,
    and accept exactly when the result is the root or extends `root + "/"`.
    The workspace root is modelled as an absolute path (the source falls
    back to `process.cwd()` and re-resolves, which always yields one). -/
def resolvePathInWorkspace (workspaceRoot filePath : String) : Except String String :=
  if pathResolve (normalizeAbs workspaceRoot) (stripLeadingSlashes filePath) =
        normalizeAbs workspaceRoot
      || jsStartsWith (pathResolve (normalizeAbs workspaceRoot) (stripLeadingSlashes filePath))
          (normalizeAbs workspaceRoot ++ "/") then
    Except.ok (pathResolve (normalizeAbs workspaceRoot) (stripLeadingSlashes filePath))
  else Except.error ("Security: path outside workspace denied for: " ++ filePath)

/-- `resolved` names a location inside the directory `root` (the root itself
    included): it equals the root or extends it past a separator. -/
def insideWorkspace (root resolved : String) : Bool :=
  resolved = root || jsStartsWith resolved (root ++ "/")

instance : DecidableEq (Except String String) := fun a b =>
  match a, b with
  | Except.ok x, Except.ok y => decidable_of_iff (x = y) (by simp)
  | Except.error x, Except.error y => decidable_of_iff (x = y) (by simp)
  | Except.ok _, Except.error _ => isFalse (by simp)
  | Except.error _, Except.ok _ => isFalse (by simp)

/-- The call was accepted. -/
def accepts (e : Except String String) : Bool :=
  match e with
  | Except.ok _ => true
  | Except.error _ => false

/-! ## Conversation messages and token estimation (server/context-manager.js)

Message contents are modelled as strings; for object contents the source
stringifies before measuring, so the string in the model is that JSON
text. -/

/-- A conversation message. -/
structure Message where
  role : String
  content : String
deriving DecidableEq

/-- `estimateTokens(text)`: `Math.ceil(text.length / 3.5)`, and `0` for a
    falsy (empty) string.  `⌈n / 3.5⌉ = ⌈2n / 7⌉ = (2n + 6) / 7` in `Nat`. -/
def estimateTokens (text : String) : Nat :=
  if text = "" then 0 else (2 * text.length + 6) / 7

/-- `estimateMessagesTokens(messages)`: four tokens of per-message overhead
    plus the role and content estimates. -/
def estimateMessagesTokens (messages : List Message) : Nat :=
  (messages.map (fun m => 4 + estimateTokens m.role + estimateTokens m.content)).sum

/-- Join a list of strings with a separator (JS `Array.prototype.join`). -/
def joinSep (sep : String) : List String → String
  | [] => ""
  | [x] => x
  | x :: xs => x ++ sep ++ joinSep sep xs

/-- `smartTruncate(text, maxChars)`: keep the first 70% and the last 20% of
    the budget around a separator naming the omitted count.  The sizes are
    `Math.floor(maxChars * 0.7)` and `Math.floor(maxChars * 0.2)` as IEEE-754
    evaluates them (`floorMul07 90 = 62`, not 63).  The tail is
    `text.slice(-tailSize)`, and JS `slice(-0)` is `slice(0)`: when
    `tailSize = 0` the *whole* string is appended as the tail. -/
def smartTruncate (text : String) (maxChars : Nat) : String :=
  if text.length ≤ maxChars then text
  else
    let headSize := floorMul07 maxChars
    let tailSize := floorMul02 maxChars
    let head := strTake text headSize
    let tail := jsSliceNeg text tailSize
    let omitted := text.length - headSize - tailSize
    head ++ "\n\n... [" ++ natToDecimal omitted ++ " characters omitted] ...\n\n" ++ tail

/-! ## Tool-result truncation (server/context-manager.js)

Tool results are modelled by the well-known fields the source inspects;
`JSON.stringify` is modelled for that record shape with the fields in a
fixed order (the source serialises in insertion order, which the
truncation bounds do not depend on). -/

/-- A tool result object with the fields `truncateToolResult` inspects. -/
structure ToolResult where
  content : Option String := none
  stdout : Option String := none
  stderr : Option String := none
  files : Option (List String) := none
  «matches» : Option (List String) := none
  truncated : Option String := none
deriving DecidableEq

/-- JSON escaping of one character (the escapes JSON.stringify emits for
    the characters that occur in this development). -/
def jsonEscapeChar (c : Char) : List Char :=
  if c = '"' then ['\\', '"']
  else if c = '\\' then ['\\', '\\']
  else if c = '\n' then ['\\', 'n']
  else if c = '\r' then ['\\', 'r']
  else if c = '\t' then ['\\', 't']
  else [c]

/-- JSON escaping of a string. -/
def jsonEscape (s : String) : String := ⟨(s.data.map jsonEscapeChar).flatten⟩

/-- A JSON string literal. -/
def jsonStr (s : String) : String := "\"" ++ jsonEscape s ++ "\""

/-- A JSON array of string literals. -/
def jsonArr (l : List String) : String := "[" ++ joinSep "," (l.map jsonStr) ++ "]"

/-- `JSON.stringify` for the modelled tool-result shape. -/
def jsonStringify (r : ToolResult) : String :=
  let fields :=
    (match r.content with | some c => ["\"content\":" ++ jsonStr c] | none => []) ++
    (match r.stdout with | some c => ["\"stdout\":" ++ jsonStr c] | none => []) ++
    (match r.stderr with | some c => ["\"stderr\":" ++ jsonStr c] | none => []) ++
    (match r.files with | some l => ["\"files\":" ++ jsonArr l] | none => []) ++
    (match r.«matches» with | some l => ["\"matches\":" ++ jsonArr l] | none => []) ++
    (match r.truncated with | some c => ["\"truncated\":" ++ jsonStr c] | none => [])
  "\x7b" ++ joinSep "," fields ++ "\x7d"

/-- A truncated tool result: still an object, or a smart-truncated JSON string. -/
inductive ToolValue where
  | obj (r : ToolResult)
  | str (s : String)
deriving DecidableEq

def MAX_TOOL_RESULT_CHARS : Nat := 3000
def MAX_FILE_CONTENT_CHARS : Nat := 4000

/-- The string-field truncation of `truncateToolResult`
    (`if (clone.X.length > lim) clone.X = smartTruncate(clone.X, lim)`). -/
def truncStrField (lim : Nat) : Option String → Option String
  | some c => if lim < c.length then some (smartTruncate c lim) else some c
  | none => none

/-- The `files` truncation: keep 80 entries and push a note entry. -/
def truncFilesField : Option (List String) → Option (List String)
  | some fs =>
      if 80 < fs.length then
        some (fs.take 80 ++ ["... and " ++ natToDecimal (fs.length - 80) ++ " more files"])
      else some fs
  | none => none

/-- The `matches` truncation: keep 30 entries and set the
    `truncated` note; otherwise both fields pass through. -/
def truncMatchesField (truncated : Option String) :
    Option (List String) → Option (List String) × Option String
  | some ms =>
      if 30 < ms.length then
        (some (ms.take 30), some ("Showing 30 of " ++ natToDecimal ms.length ++ " matches"))
      else (some ms, truncated)
  | none => (none, truncated)

/-- The `clone` of `truncateToolResult` after its field truncations. -/
def cloneOf (r : ToolResult) : ToolResult :=
  ⟨truncStrField MAX_FILE_CONTENT_CHARS r.content,
   truncStrField 2000 r.stdout,
   truncStrField 1000 r.stderr,
   truncFilesField r.files,
   (truncMatchesField r.truncated r.«matches»).1,
   (truncMatchesField r.truncated r.«matches»).2⟩

/-- `truncateToolResult(result)` from server/context-manager.js for object
    results: within budget, unchanged; otherwise truncate the well-known
    fields (`files` keeps 80 entries *and pushes a note entry*), then if the
    re-serialised clone still exceeds budget + 500 slack, fall back to a
    smart-truncated JSON string. -/
def truncateToolResult (result : ToolResult) : ToolValue :=
  if (jsonStringify result).length ≤ MAX_TOOL_RESULT_CHARS then ToolValue.obj result
  else if (jsonStringify (cloneOf result)).length ≤ MAX_TOOL_RESULT_CHARS + 500 then
    ToolValue.obj (cloneOf result)
  else ToolValue.str (smartTruncate (jsonStringify (cloneOf result)) MAX_TOOL_RESULT_CHARS)

/-! ## Trim to context budget (server/context-manager.js) -/

/-- The per-message accounting used by the trim loop: content-token
    estimate plus four tokens of overhead, summed. -/
def keptCost (l : List Message) : Nat :=
  (l.map (fun m => estimateTokens m.content + 4)).sum

/-- The backwards walk of `trimForContextWindow`: the argument lists the
    non-system messages newest first, `usedTokens` is the budget consumed so
    far; the result is in the original (oldest-first) order.  A message that
    does not fit whole may be included smart-truncated when at least 100
    tokens of budget remain and more than 200 characters can be granted
    (`remainingChars = ⌊(available - used - 20) · 3.5⌋`). -/
def trimLoop : List Message → Nat → Nat → List Message
  | [], _, _ => []
  | m :: ms, available, usedTokens =>
    let tokens := estimateTokens m.content + 4
    if usedTokens + tokens ≤ available then
      trimLoop ms available (usedTokens + tokens) ++ [m]
    else if usedTokens + 100 ≤ available then
      let remainingChars := 7 * (available - usedTokens - 20) / 2
      if 200 < remainingChars then
        [{ m with content := smartTruncate m.content remainingChars }]
      else []
    else []

/-- `trimForContextWindow(messages, maxTokens)`: lists of at most two
    messages are returned unchanged; otherwise reserve the system prompt
    plus 1024 reply tokens and keep a suffix of the rest within the
    remaining budget.  If the system prompt alone exhausts the budget,
    return it smart-truncated (to `⌊budget · 3.5 · 0.5⌋` chars) paired with
    only the most recent message. -/
def trimForContextWindow (messages : List Message) (maxTokens : Nat) : List Message :=
  if messages.length ≤ 2 then messages
  else
    let budget := if maxTokens = 0 then 6000 else maxTokens
    match messages with
    | [] => messages
    | system :: rest =>
      let systemTokens := estimateTokens system.content
      if budget ≤ systemTokens + 1024 then
        [{ system with content := smartTruncate system.content (budget * 7 / 4) },
         rest.getLastD system]
      else
        system :: trimLoop rest.reverse (budget - systemTokens - 1024) 0

/-- `shouldAutoCompact(messages, maxTokens)`: estimated usage exceeds 75%
    of the budget (`t > 0.75·b ↔ 4t > 3b`, exact for doubles). -/
def shouldAutoCompact (messages : List Message) (maxTokens : Nat) : Bool :=
  let budget := if maxTokens = 0 then 6000 else maxTokens
  3 * budget < 4 * estimateMessagesTokens messages

/-! ## Conversation compaction (server/context-manager.js)

The LLM call that produces the summary is an oracle
`llm : String → Option String` (input: the summary prompt built from the
compacted prefix; `none` models a thrown/failed call, which the source
answers with a deterministic fallback summary). -/

/-- The JSON text of an observation message. -/
def obsJson (content : String) : String :=
  "\x7b\"type\":\"observation\",\"content\":" ++ jsonStr content ++ "\x7d"

structure CompactResult where
  messages : List Message
  compacted : Bool
  removedCount : Nat
deriving DecidableEq

/-- `compactConversation(messages, model)`: keep the system message and the
    last four non-system messages; replace everything in between (when it is
    at least two messages) by a single assistant observation holding a
    summary. -/
def compactConversation (messages : List Message) (llm : String → Option String) : CompactResult :=
  if messages.length ≤ 3 then ⟨messages, false, 0⟩
  else
    match messages with
    | [] => ⟨messages, false, 0⟩
    | system :: rest =>
      let keepCount := min 4 rest.length
      let toCompact := rest.take (rest.length - keepCount)
      let toKeep := rest.drop (rest.length - keepCount)
      if toCompact.length < 2 then ⟨messages, false, 0⟩
      else
        let summaryInput :=
          joinSep "\n" (toCompact.map (fun m => "[" ++ m.role ++ "]: " ++ strTake m.content 500))
        let summary := match llm (strTake summaryInput 3000) with
          | some s => s
          | none =>
            "Previous conversation (" ++ natToDecimal toCompact.length ++ " messages compacted): " ++
              joinSep "; " ((toCompact.filter (fun m => m.role == "user")).map
                (fun m => strTake m.content 100))
        let compactedMessage : Message :=
          ⟨"assistant",
           obsJson ("[Conversation summary — " ++ natToDecimal toCompact.length ++
             " older messages compacted]\n" ++ summary)⟩
        ⟨system :: compactedMessage :: toKeep, true, toCompact.length⟩

/-! ## `read_file` (server/tools.js, `runTool` case `read_file`)

The file system is abstracted: `content` is the text of the (readable)
target file.  The permission wrapper runs the action unchanged here (the
engine always dispatches with `autoMode` set and the `read_file` policy
defaults to `always`). -/

/-- JS `content.split('\n')` (keeps empty pieces; `""` splits to `[""]`). -/
def jsSplitAux : List Char → List Char → List String
  | [], cur => [⟨cur.reverse⟩]
  | c :: cs, cur =>
    if c = '\n' then (⟨cur.reverse⟩ : String) :: jsSplitAux cs []
    else jsSplitAux cs (c :: cur)

/-- Split a string on newlines as JS does. -/
def jsSplitNl (s : String) : List String := jsSplitAux s.data []

/-- `slice.map((l, i) => `<i+start+1>|<l>`)`: number lines starting at
    `start` (0-based slice offset, 1-based displayed numbers). -/
def numberLinesFrom : Nat → List String → List String
  | _, [] => []
  | i, l :: ls => (natToDecimal (i + 1) ++ "|" ++ l) :: numberLinesFrom (i + 1) ls

/-- The object `read_file` returns on success. -/
structure ReadFileResult where
  file : String
  content : String
  totalLines : Nat
  showing : Option String := none
  note : Option String := none
deriving DecidableEq

def MAX_LINES_AUTO : Nat := 200

/-- JS truthiness of an optional numeric argument (`0` is falsy). -/
def truthyNat : Option Nat → Bool
  | some n => decide (n ≠ 0)
  | none => false

/-- The `read_file` tool body on a readable file with text `content`. -/
def readFileRun (pathArg content : String) (offset limit : Option Nat) : ReadFileResult :=
  let lines := jsSplitNl content
  let totalLines := lines.length
  if truthyNat offset || truthyNat limit then
    let ofs := match offset with | some n => if n = 0 then 1 else n | none => 1
    let start := ofs - 1
    let stop := match limit with
      | some l => if l = 0 then min lines.length (start + MAX_LINES_AUTO) else start + l
      | none => min lines.length (start + MAX_LINES_AUTO)
    let slice := (lines.drop start).take (stop - start)
    ⟨pathArg, joinSep "\n" (numberLinesFrom start slice), totalLines,
     some (natToDecimal (start + 1) ++ "-" ++ natToDecimal (start + slice.length)), none⟩
  else if MAX_LINES_AUTO < totalLines then
    let slice := lines.take MAX_LINES_AUTO
    ⟨pathArg, joinSep "\n" (numberLinesFrom 0 slice), totalLines,
     some ("1-" ++ natToDecimal MAX_LINES_AUTO),
     some ("File has " ++ natToDecimal totalLines ++ " lines. Showing first " ++
       natToDecimal MAX_LINES_AUTO ++ ". Use offset/limit args to read more.")⟩
  else
    ⟨pathArg, joinSep "\n" (numberLinesFrom 0 lines), totalLines, none, none⟩

/-! ## The ReAct step loop (server/agent.js, `runAgent`)

The LLM is an oracle: the run consumes a list of already-parsed
directives, one per step (the source's JSON extraction, wrapped-action
and salvage stages all end in such a directive or in the no-response
final, which the empty oracle models).  Tool results, the file system
and sub-agents are abstracted behind *effects*; the payloads pushed for
tool observations are environment-dependent and appear as fixed
placeholders. -/

/-- A parsed model directive (§4.2 of the spec, lines 642-648 of agent.js). -/
inductive Directive where
  | thought (content : String)
  | action (tool : String) (argsJson : String)
  | diffRequest (filePath diff : String)
  | delegate (tasks : List String)
  | finalD (content : String)
deriving DecidableEq

/-- `JSON.stringify(parsed)` for a directive (assistant echo messages). -/
def directiveJson : Directive → String
  | Directive.thought c => "\x7b\"type\":\"thought\",\"content\":" ++ jsonStr c ++ "\x7d"
  | Directive.action t a => "\x7b\"type\":\"action\",\"tool\":" ++ jsonStr t ++ ",\"args\":" ++ a ++ "\x7d"
  | Directive.diffRequest f d =>
      "\x7b\"type\":\"diff_request\",\"filePath\":" ++ jsonStr f ++ ",\"diff\":" ++ jsonStr d ++ "\x7d"
  | Directive.delegate ts => "\x7b\"type\":\"delegate\",\"tasks\":" ++ jsonArr ts ++ "\x7d"
  | Directive.finalD c => "\x7b\"type\":\"final\",\"content\":" ++ jsonStr c ++ "\x7d"

/-- An SSE frame written through `send` during the run. -/
inductive Event where
  | sent (d : Directive)
  | observationEv
  | openFileEv (path : String)
deriving DecidableEq

/-- Side effects of a step: checkpoint/summary/conversation writes, a tool
    dispatched through `runTool`, a swarm delegation, a file read by the
    diff-synthesis branches. -/
inductive Effect where
  | saveCheckpoint
  | saveSummary
  | saveConv
  | toolRun (tool : String)
  | swarmRun (tasks : List String)
  | fileRead (path : String)
deriving DecidableEq

/-- The per-session state (the fields of the `state` object of `runAgent`,
    except environment handles). -/
structure AgentState where
  step : Nat := 0
  agentPlus : Bool := false
  workspaceRoot : String := "/workspace"
  messages : List Message := []
  pendingDiff : Option (String × String) := none
  currentPlan : Option String := none
  completedTasks : Nat := 0
  totalTasks : Nat := 0
  consecutiveFinals : Nat := 0
  compactCount : Nat := 0
  consecutiveStepsWithoutAction : Nat := 0
  stopRequested : Bool := false
  swarmDisabled : Bool := false
deriving DecidableEq

/-- What a step decides: continue looping, or return from the run
    (`removed` records whether `activeAgents.delete` was called). -/
inductive Control where
  | continueLoop
  | halt (removed : Bool)
deriving DecidableEq

structure StepResult where
  state : AgentState
  events : List Event
  effects : List Effect
  control : Control
deriving DecidableEq

/-- `/^\d+\.\s/` at the start of the given characters. -/
def matchNumDot (l : List Char) : Bool :=
  match l.dropWhile Char.isDigit with
  | '.' :: w :: _ => decide (l.takeWhile Char.isDigit ≠ []) && w.isWhitespace
  | _ => false

/-- Count of `/^\d+\.\s/gm` matches: positions at a line start where the
    pattern matches (the whitespace may be the line's own terminator). -/
def countNumberedAux : List Char → Bool → Nat
  | [], _ => 0
  | c :: cs, atStart =>
    (if atStart && matchNumDot (c :: cs) then 1 else 0) + countNumberedAux cs (decide (c = '\n'))

def countNumberedLines (content : String) : Nat := countNumberedAux content.data true

/-- Plan tracking from a thought (agent.js lines 651-661). -/
def planThoughtUpdate (s : AgentState) (content : String) : AgentState :=
  let s1 :=
    if containsSub content "PLAN:" || containsSub content "PLAN\n" || matchNumDot content.data then
      let withPlan := { s with currentPlan := some (strTake content 500) }
      let taskCount := countNumberedLines content
      if 0 < taskCount then { withPlan with totalTasks := taskCount } else withPlan
    else s
  if containsSub content "PROGRESS:" || containsSub content "Completed task" then
    { s1 with completedTasks := s1.completedTasks + 1 }
  else s1

/-- agent.js line 710. -/
def finalNudgeMsg (completed total : Nat) : String :=
  "You said you\x27re done, but you\x27ve only completed " ++ natToDecimal completed ++ "/" ++
    natToDecimal total ++
    " planned tasks. Please continue with the remaining tasks. Do NOT emit final until ALL tasks are complete."

/-- agent.js line 712. -/
def continuingMsg (completed total : Nat) : String :=
  "Continuing... (" ++ natToDecimal completed ++ "/" ++ natToDecimal total ++ " tasks done)"

/-- agent.js line 768 (the anti-loop nudge after two steps without action). -/
def antiLoopNudgeMsg : String :=
  "You have been thinking without acting. Remember: a thought must always be followed by an action. Your next response MUST be \x7b\"type\":\"action\",\"tool\":\"<tool_name>\",\"args\":\x7b...\x7d\x7d. Take action now."

/-- agent.js line 669. -/
def swarmDisabledMsg : String :=
  "Delegation is disabled (swarm failed earlier, e.g. memory/hardware). Complete the remaining tasks yourself in single-agent mode. Do NOT emit delegate again; use actions and thoughts only."

/-- agent.js line 676 (`maxWorkers` is 2: `SWARM_MAX_WORKERS` is not set by
    config.js, so `Math.max(1, Math.min(5, undefined || 2)) = 2`). -/
def swarmThoughtMsg (n : Nat) : String :=
  "Swarm: delegating " ++ natToDecimal n ++ " subtask(s) (max 2 in parallel)."

/-- JSON of an `{error: ...}` tool result. -/
def errJson (e : String) : String := "\x7b\"error\":" ++ jsonStr e ++ "\x7d"

/-- Environment-dependent payloads, abstracted. -/
def toolObservationPayload : String := "(tool observation)"
def swarmResultsPayload : String := "(swarm results)"
def synthesisedDiff : String := "(unified diff)"

/-- The path of `abs` relative to `root`, for `abs` inside `root`
    (adequate model of `path.relative` on confined resolved paths). -/
def relToRoot (root abs : String) : String := ⟨abs.data.drop ((root ++ "/").length)⟩

/-- `executeToolAction` (agent.js lines 957-1042), reached with
    `consecutiveFinals` and `consecutiveStepsWithoutAction` already reset.
    The diff-synthesis branches assume the relevant args are present (the
    model's `Directive.action` carries the arg object opaquely); the tool
    outcome itself is environment-dependent and abstracted as an effect. -/
def executeToolAction (s : AgentState) (tool : String) (argsJson : String) : StepResult :=
  if (tool = "mcp_list_tools" ∨ tool = "mcp_call_tool" ∨ tool = "perform_browser_task")
      ∧ s.agentPlus = false then
    { state := { s with messages :=
        s.messages ++ [Message.mk "tool" (errJson "MCP/browser automation requires Agent+ mode.")] },
      events := [Event.observationEv], effects := [], control := Control.continueLoop }
  else if s.agentPlus = false
      ∧ (tool = "apply_diff" ∨ tool = "write_file" ∨ tool = "replace_in_file") then
    -- Agent mode: synthesise a diff_request instead of dispatching; the
    -- current file content is read (write_file / replace_in_file) and a
    -- unified diff is produced; the run ends awaiting approval.
    let fp := relToRoot s.workspaceRoot (s.workspaceRoot ++ "/" ++ argsJson)
    let dr := Directive.diffRequest fp synthesisedDiff
    { state := { s with pendingDiff := some (fp, synthesisedDiff) },
      events := [Event.sent dr],
      effects := if tool = "apply_diff" then [] else [Effect.fileRead fp],
      control := Control.halt false }
  else
    { state := { s with messages := s.messages ++ [Message.mk "tool" toolObservationPayload] },
      events := [Event.observationEv], effects := [Effect.toolRun tool, Effect.saveConv],
      control := Control.continueLoop }

/-- Directive dispatch after the generic `send(parsed)` and the assistant
    echo push (agent.js lines 692-771). -/
def afterSend (s0 : AgentState) (parsed : Directive) : StepResult :=
  let s := { s0 with messages := s0.messages ++ [Message.mk "assistant" (directiveJson parsed)] }
  match parsed with
  | Directive.finalD _ =>
    let s := { s with consecutiveFinals := s.consecutiveFinals + 1 }
    if 0 < s.totalTasks ∧ s.completedTasks < s.totalTasks ∧ s.consecutiveFinals ≤ 2 then
      { state := { s with messages :=
          s.messages ++ [Message.mk "user" (finalNudgeMsg s.completedTasks s.totalTasks)] },
        events := [Event.sent (Directive.thought (continuingMsg s.completedTasks s.totalTasks))],
        effects := [], control := Control.continueLoop }
    else
      { state := s, events := [], effects := [Effect.saveCheckpoint, Effect.saveSummary],
        control := Control.halt true }
  | Directive.diffRequest fp d =>
    let s := { s with consecutiveStepsWithoutAction := 0, pendingDiff := some (fp, d) }
    if s.agentPlus then
      -- auto-approve: apply_diff through the dispatcher (outcome abstracted)
      { state := { s with pendingDiff := none, messages := s.messages ++
          [Message.mk "assistant" (obsJson "Diff auto-applied successfully (Agent+ mode). Continue with the next task.")] },
        events := [Event.observationEv], effects := [Effect.toolRun "apply_diff"],
        control := Control.continueLoop }
    else
      -- Agent mode: end the run, leaving the session waiting for approval
      { state := s, events := [], effects := [], control := Control.halt false }
  | Directive.action tool args =>
    executeToolAction
      { s with consecutiveFinals := 0, consecutiveStepsWithoutAction := 0 } tool args
  | _ =>
    -- thought (or a delegate that no branch claimed): no tool or diff this
    -- step; counts toward the no-progress stop, anti-loop nudge after two
    let s := { s with
      consecutiveFinals := 0,
      consecutiveStepsWithoutAction := s.consecutiveStepsWithoutAction + 1 }
    if 2 ≤ s.consecutiveStepsWithoutAction then
      { state := { s with messages := s.messages ++ [Message.mk "user" antiLoopNudgeMsg] },
        events := [], effects := [], control := Control.continueLoop }
    else
      { state := s, events := [], effects := [], control := Control.continueLoop }

/-- One parsed directive handled by the step loop body (agent.js lines
    642-771): plan tracking, the agent-plus delegate branch, then the
    generic send / echo / dispatch. -/
def handleDirective (s0 : AgentState) (parsed : Directive) : StepResult :=
  let s := match parsed with
    | Directive.thought c => planThoughtUpdate s0 c
    | _ => s0
  match parsed with
  | Directive.delegate tasks =>
    if s.agentPlus = true ∧ tasks ≠ [] then
      let s1 := { s with messages := s.messages ++ [Message.mk "assistant" (directiveJson parsed)] }
      if s1.swarmDisabled then
        { state := { s1 with consecutiveStepsWithoutAction := 0, messages :=
            s1.messages ++ [Message.mk "user" swarmDisabledMsg] },
          events := [Event.sent (Directive.thought "Continuing in single-agent mode (delegation disabled).")],
          effects := [], control := Control.continueLoop }
      else
        -- swarm execution (§4.4.2) abstracted: sub-agents run, the combined
        -- observation is pushed (failure fallback not modelled)
        { state := { s1 with consecutiveStepsWithoutAction := 0, messages :=
            s1.messages ++ [Message.mk "tool" (obsJson swarmResultsPayload)] },
          events := [Event.sent (Directive.thought (swarmThoughtMsg tasks.length)),
                     Event.observationEv],
          effects := [Effect.swarmRun tasks], control := Control.continueLoop }
    else
      let r := afterSend s parsed
      { r with events := Event.sent parsed :: r.events }
  | _ =>
    let r := afterSend s parsed
    { r with events := Event.sent parsed :: r.events }

/-- Messages emitted by the loop's terminal paths. -/
def stoppedByUserMsg : String := "Agent stopped by user."
def noProgressMsg : String := "Stopped: no further actions after several steps. Send a follow-up to continue."
def safetyCapMsg : String := "Stopped after many steps to avoid long runs. Send a follow-up to continue."
def noResponseMsg : String := "No response from model."

def NO_PROGRESS_LIMIT : Nat := 10

/-- `CONTEXT_WINDOW_SIZE` (config.js default 16384). -/
def CONTEXT_BUDGET : Nat := 16384

/-- The auto-compaction phase of a step (agent.js lines 525-541): at most
    three compactions, triggered at 75% of budget; on success the message
    list is replaced and a checkpoint saved.  (The catch branch that pins
    `compactCount` at 3 models a thrown LLM call, which the oracle form of
    `compactConversation` does not produce.) -/
def compactPhase (s : AgentState) (llm : String → Option String) : AgentState × List Effect :=
  if s.compactCount < 3 then
    if shouldAutoCompact s.messages CONTEXT_BUDGET then
      let r := compactConversation s.messages llm
      if r.compacted then
        ({ s with messages := r.messages, compactCount := s.compactCount + 1 },
         [Effect.saveCheckpoint])
      else (s, [])
    else (s, [])
  else (s, [])

/-- One run outcome: the SSE frames, the side effects, the final session
    state, and whether the session was removed from `activeAgents`. -/
structure RunOutcome where
  state : AgentState
  events : List Event
  effects : List Effect
  removed : Bool
deriving DecidableEq

/-- The ReAct for-loop of `runAgent` (lines 511-777): fuel is
    `maxSteps - state.step`; each iteration first observes the stop flag,
    then the no-progress limit, then compacts/checkpoints/trims, consumes
    one oracle directive and dispatches it.  Fuel exhaustion is the safety
    cap; an exhausted oracle is a model that returned nothing. -/
def runLoop (llm : String → Option String) : Nat → List Directive → AgentState → RunOutcome
  | 0, _, s =>
    { state := s, events := [Event.sent (Directive.finalD safetyCapMsg)],
      effects := [Effect.saveCheckpoint, Effect.saveSummary], removed := false }
  | Nat.succ fuel, oracle, s =>
    if s.stopRequested then
      { state := { s with stopRequested := false },
        events := [Event.sent (Directive.finalD stoppedByUserMsg)],
        effects := [Effect.saveCheckpoint], removed := false }
    else if NO_PROGRESS_LIMIT ≤ s.consecutiveStepsWithoutAction then
      { state := s, events := [Event.sent (Directive.finalD noProgressMsg)],
        effects := [Effect.saveCheckpoint], removed := false }
    else
      let sc := compactPhase s llm
      let efsCp := if 0 < sc.1.step ∧ sc.1.step % 8 = 0 then [Effect.saveCheckpoint] else []
      let _view := trimForContextWindow sc.1.messages CONTEXT_BUDGET
      match oracle with
      | [] =>
        { state := sc.1, events := [Event.sent (Directive.finalD noResponseMsg)],
          effects := sc.2 ++ efsCp, removed := false }
      | parsed :: rest =>
        let r := handleDirective sc.1 parsed
        match r.control with
        | Control.halt removed =>
          { state := r.state, events := r.events,
            effects := sc.2 ++ efsCp ++ r.effects, removed := removed }
        | Control.continueLoop =>
          let k := runLoop llm fuel rest { r.state with step := r.state.step + 1 }
          { state := k.state, events := r.events ++ k.events,
            effects := sc.2 ++ efsCp ++ r.effects ++ k.effects, removed := k.removed }

/-- The segments of the normalised workspace root. -/
def rootSegs (ws : String) : List (List Char) := normSegsAux (pathSegs ws) []

/-! ## Definitions used only to state and instantiate the claims -/

/-- `smartTruncate` exactly as claim C7 words it: the first `⌊0.7·m⌋`
    characters, a separator naming `length - ⌊0.7·m⌋ - ⌊0.2·m⌋` omitted
    characters, then the *last `⌊0.2·m⌋` characters*. -/
def smartTruncateClaim (text : String) (maxChars : Nat) : String :=
  if text.length ≤ maxChars then text
  else
    strTake text (maxChars * 7 / 10) ++ "\n\n... [" ++
      natToDecimal (text.length - maxChars * 7 / 10 - maxChars * 2 / 10) ++
      " characters omitted] ...\n\n" ++ strLastN text (maxChars * 2 / 10)

/-- A session at a step boundary with a stop request pending. -/
def c2StopState : AgentState :=
  { stopRequested := true,
    messages := [Message.mk "system" "prompt", Message.mk "user" "task"] }

/-- Two messages totalling 12 estimated tokens. -/
def c3TwoMessages : List Message := [Message.mk "system" "", Message.mk "user" ""]

/-- Non-system messages for the C3 witness. -/
def c3Rest : List Message :=
  [Message.mk "user" "hello", Message.mk "assistant" "hi", Message.mk "user" "go"]

/-- A seven-message conversation (system + six) that compaction rewrites. -/
def c4SevenMessages : List Message :=
  [Message.mk "system" "sp", Message.mk "user" "u1", Message.mk "assistant" "a1",
   Message.mk "user" "u2", Message.mk "assistant" "a2", Message.mk "user" "u3",
   Message.mk "assistant" "a3"]

/-- One 36-character file name. -/
def c5Str : String := String.mk (List.replicate 36 'a')

/-- A tool result whose `files` array has 82 entries of 36 characters:
    its serialisation is 3209 characters, above the 3000 budget. -/
def c5BigFiles : ToolResult := { files := some (List.replicate 82 c5Str) }

/-- The note entry the files truncation pushes for `c5BigFiles`. -/
def c5Note : String := "... and " ++ natToDecimal 2 ++ " more files"

/-- The files array of the truncated clone: 80 entries plus the note. -/
def c5TruncFiles : List String := List.replicate 80 c5Str ++ [c5Note]

/-- The clone `truncateToolResult` returns for `c5BigFiles`. -/
def c5Clone : ToolResult := { files := some c5TruncFiles }

/-- A file with exactly 201 lines. -/
def c6File201 : String := joinSep "\n" (List.replicate 201 "line")

/-- A session that planned three tasks and completed one. -/
def c8NudgeState : AgentState :=
  { messages := [Message.mk "system" "prompt", Message.mk "user" "task"],
    totalTasks := 3, completedTasks := 1 }

/-- A fresh agent-mode session (no prior no-action steps). -/
def c9DelegateState : AgentState :=
  { messages := [Message.mk "system" "prompt", Message.mk "user" "task"] }

/-! ## Helper lemmas -/

theorem strData_append (a b : String) : (a ++ b).data = a.data ++ b.data := by
  cases a; cases b; rfl

theorem strLength_mk (l : List Char) : (String.mk l).length = l.length := rfl

theorem estimateTokens_le (t : String) : estimateTokens t ≤ (2 * t.length + 6) / 7 := by
  unfold estimateTokens; split <;> omega

theorem estimateTokens_le_of_length_le {t : String} {L : Nat} (h : t.length ≤ L) :
    estimateTokens t ≤ (2 * L + 6) / 7 := by
  have h1 := estimateTokens_le t
  have h2 : (2 * t.length + 6) / 7 ≤ (2 * L + 6) / 7 := Nat.div_le_div_right (by omega)
  omega

theorem decAux_length_le : ∀ (fuel n k : Nat), n < 10 ^ k → (decAux fuel n).length ≤ k := by
  intro fuel
  induction fuel with
  | zero => intro n k _; simp [decAux]
  | succ fuel ih =>
    intro n k hn
    match n with
    | 0 => simp [decAux]
    | Nat.succ m =>
      cases k with
      | zero => simp at hn
      | succ k' =>
        have h10 : (Nat.succ m) / 10 < 10 ^ k' := by
          apply Nat.div_lt_of_lt_mul
          have : (10:Nat) ^ (k' + 1) = 10 ^ k' * 10 := by ring
          omega
        have := ih (Nat.succ m / 10) k' h10
        simp only [decAux, List.length_append, List.length_cons, List.length_nil]
        omega

theorem natToDecimal_length_le {n k : Nat} (h1 : 1 ≤ k) (h : n < 10 ^ k) :
    (natToDecimal n).length ≤ k := by
  unfold natToDecimal
  split
  · simpa using h1
  · simpa [strLength_mk] using decAux_length_le n n k h

theorem strTake_length (s : String) (n : Nat) : (strTake s n).length = min n s.length := by
  simp [strTake, strLength_mk, List.length_take]

theorem strLastN_length (s : String) (n : Nat) (h : n ≤ s.length) :
    (strLastN s n).length = n := by
  have : s.data.length = s.length := rfl
  simp [strLastN, strLength_mk, List.length_drop]; omega

/-! Bounds on the binary64 floors: rounding to 53 bits moves the exact
    product `N / 2^s` by at most one part in `2^52` plus one unit, in
    either direction. -/

theorem log2Fuel_le : ∀ (fuel n : Nat), 1 ≤ n → 2 ^ log2Fuel fuel n ≤ n := by
  intro fuel
  induction fuel with
  | zero => intro n h; simpa [log2Fuel] using h
  | succ fuel ih =>
    intro n h
    simp only [log2Fuel]
    split
    · simpa using h
    · rename_i hgt
      have hrec := ih (n / 2) (by omega)
      rw [pow_succ]
      omega

theorem natLog2_le {n : Nat} (h : 1 ≤ n) : 2 ^ natLog2 n ≤ n := log2Fuel_le 128 n h

theorem roundNearestEven_le (N d : Nat) : roundNearestEven N d ≤ N / 2 ^ d + 1 := by
  unfold roundNearestEven
  split_ifs <;> first | exact Nat.le_refl _ | exact Nat.le_succ _

theorem roundNearestEven_ge (N d : Nat) : N / 2 ^ d ≤ roundNearestEven N d := by
  unfold roundNearestEven
  split_ifs <;> first | exact Nat.le_succ _ | exact Nat.le_refl _

theorem pow_sub_mul_pow_eq {k s : Nat} (h : s + 52 ≤ k) :
    2 ^ (k - 52 - s) * 2 ^ s = 2 ^ (k - 52) := by
  rw [← pow_add]
  congr 1
  omega

theorem div_div_pow_eq {N k s : Nat} (h1 : 52 ≤ k) (h2 : k ≤ s + 52) :
    N / 2 ^ (k - 52) / 2 ^ (s + 52 - k) = N / 2 ^ s := by
  rw [Nat.div_div_eq_div_mul, ← pow_add]
  have he : k - 52 + (s + 52 - k) = s := by omega
  rw [he]

/-- `a·c / b ≤ (a/b)·c + c`: dividing after scaling loses at most one
    scaled unit. -/
theorem mul_div_le_div_mul_add (a b c : Nat) (hb : 0 < b) :
    a * c / b ≤ a / b * c + c := by
  have hmod := Nat.div_add_mod a b
  have hlt : a % b < b := Nat.mod_lt a hb
  have ha : a * c ≤ (a / b + 1) * b * c := by
    have hstep : a < (a / b + 1) * b := by
      calc a = b * (a / b) + a % b := hmod.symm
        _ < b * (a / b) + b := by omega
        _ = (a / b + 1) * b := by ring
    exact Nat.mul_le_mul_right c (le_of_lt hstep)
  calc a * c / b ≤ (a / b + 1) * b * c / b := Nat.div_le_div_right ha
    _ = (a / b + 1) * c * b / b := by rw [mul_right_comm]
    _ = (a / b + 1) * c * (b / b) := by rw [Nat.mul_div_assoc _ (dvd_refl b)]
    _ = (a / b + 1) * c := by rw [Nat.div_self hb, mul_one]
    _ = a / b * c + c := by ring

theorem jsFloorMul_pos_log {m mant : Nat} (h : ¬ natLog2 (m * mant) ≤ 52) :
    1 ≤ m * mant := by
  by_contra hc
  push_neg at hc
  have h0 : m * mant = 0 := by omega
  rw [h0] at h
  exact h (by decide)

theorem jsFloorMul_le (m mant s : Nat) :
    jsFloorMul m mant s ≤ m * mant / 2 ^ s + m * mant / 2 ^ (s + 52) + 1 := by
  unfold jsFloorMul
  split_ifs with h1 h2
  · exact le_trans (Nat.le_add_right _ _) (Nat.le_succ _)
  · have hN1 : 1 ≤ m * mant := jsFloorMul_pos_log h1
    have hklow : 2 ^ natLog2 (m * mant) ≤ m * mant := natLog2_le hN1
    have hM := roundNearestEven_le (m * mant) (natLog2 (m * mant) - 52)
    have step1 : roundNearestEven (m * mant) (natLog2 (m * mant) - 52) *
        2 ^ (natLog2 (m * mant) - 52 - s) ≤
        (m * mant / 2 ^ (natLog2 (m * mant) - 52)) * 2 ^ (natLog2 (m * mant) - 52 - s) +
          2 ^ (natLog2 (m * mant) - 52 - s) :=
      calc roundNearestEven (m * mant) (natLog2 (m * mant) - 52) *
            2 ^ (natLog2 (m * mant) - 52 - s)
          ≤ (m * mant / 2 ^ (natLog2 (m * mant) - 52) + 1) *
              2 ^ (natLog2 (m * mant) - 52 - s) := Nat.mul_le_mul_right _ hM
        _ = (m * mant / 2 ^ (natLog2 (m * mant) - 52)) * 2 ^ (natLog2 (m * mant) - 52 - s) +
              2 ^ (natLog2 (m * mant) - 52 - s) := by ring
    have step2 : (m * mant / 2 ^ (natLog2 (m * mant) - 52)) *
        2 ^ (natLog2 (m * mant) - 52 - s) ≤ m * mant / 2 ^ s := by
      rw [Nat.le_div_iff_mul_le (by positivity)]
      calc (m * mant / 2 ^ (natLog2 (m * mant) - 52)) * 2 ^ (natLog2 (m * mant) - 52 - s) *
            2 ^ s
          = (m * mant / 2 ^ (natLog2 (m * mant) - 52)) * 2 ^ (natLog2 (m * mant) - 52) := by
            rw [mul_assoc, pow_sub_mul_pow_eq h2]
        _ ≤ m * mant := Nat.div_mul_le_self _ _
    have step3 : 2 ^ (natLog2 (m * mant) - 52 - s) ≤ m * mant / 2 ^ (s + 52) := by
      have hdiv : 2 ^ (natLog2 (m * mant) - 52 - s) = 2 ^ natLog2 (m * mant) / 2 ^ (s + 52) := by
        rw [Nat.pow_div (by omega) (by norm_num)]
        congr 1
        omega
      rw [hdiv]
      exact Nat.div_le_div_right hklow
    exact le_trans step1 (le_trans (Nat.add_le_add step2 step3) (Nat.le_succ _))
  · have hN1 : 1 ≤ m * mant := jsFloorMul_pos_log h1
    have hM := roundNearestEven_le (m * mant) (natLog2 (m * mant) - 52)
    have step1 : roundNearestEven (m * mant) (natLog2 (m * mant) - 52) /
        2 ^ (s + 52 - natLog2 (m * mant)) ≤
        (m * mant / 2 ^ (natLog2 (m * mant) - 52) + 1) / 2 ^ (s + 52 - natLog2 (m * mant)) :=
      Nat.div_le_div_right hM
    have hpos : 0 < 2 ^ (s + 52 - natLog2 (m * mant)) := by positivity
    have step2 : (m * mant / 2 ^ (natLog2 (m * mant) - 52) + 1) /
        2 ^ (s + 52 - natLog2 (m * mant)) ≤
        m * mant / 2 ^ (natLog2 (m * mant) - 52) / 2 ^ (s + 52 - natLog2 (m * mant)) + 1 :=
      calc (m * mant / 2 ^ (natLog2 (m * mant) - 52) + 1) /
            2 ^ (s + 52 - natLog2 (m * mant))
          ≤ (m * mant / 2 ^ (natLog2 (m * mant) - 52) + 2 ^ (s + 52 - natLog2 (m * mant))) /
              2 ^ (s + 52 - natLog2 (m * mant)) :=
            Nat.div_le_div_right (Nat.add_le_add_left hpos _)
        _ = m * mant / 2 ^ (natLog2 (m * mant) - 52) / 2 ^ (s + 52 - natLog2 (m * mant)) + 1 :=
            Nat.add_div_right _ hpos
    have step3 : m * mant / 2 ^ (natLog2 (m * mant) - 52) /
        2 ^ (s + 52 - natLog2 (m * mant)) = m * mant / 2 ^ s :=
      div_div_pow_eq (by omega) (by omega)
    refine le_trans (le_trans step1 step2) ?_
    rw [step3]
    exact Nat.add_le_add_right (Nat.le_add_right _ _) 1

theorem jsFloorMul_ge (m mant s : Nat) :
    m * mant / 2 ^ s ≤ jsFloorMul m mant s + m * mant / 2 ^ (s + 52) + 1 := by
  unfold jsFloorMul
  split_ifs with h1 h2
  · exact le_trans (Nat.le_add_right _ _) (Nat.le_succ _)
  · have hN1 : 1 ≤ m * mant := jsFloorMul_pos_log h1
    have hklow : 2 ^ natLog2 (m * mant) ≤ m * mant := natLog2_le hN1
    have hb : 0 < 2 ^ (natLog2 (m * mant) - 52) := by positivity
    have hc : 0 < 2 ^ (natLog2 (m * mant) - 52 - s) := by positivity
    have hNs : m * mant / 2 ^ s =
        m * mant * 2 ^ (natLog2 (m * mant) - 52 - s) / 2 ^ (natLog2 (m * mant) - 52) := by
      rw [← pow_sub_mul_pow_eq h2, mul_comm (m * mant) (2 ^ (natLog2 (m * mant) - 52 - s))]
      exact (Nat.mul_div_mul_left _ _ hc).symm
    have key : m * mant * 2 ^ (natLog2 (m * mant) - 52 - s) / 2 ^ (natLog2 (m * mant) - 52) ≤
        (m * mant / 2 ^ (natLog2 (m * mant) - 52)) * 2 ^ (natLog2 (m * mant) - 52 - s) +
          2 ^ (natLog2 (m * mant) - 52 - s) :=
      mul_div_le_div_mul_add (m * mant) (2 ^ (natLog2 (m * mant) - 52))
        (2 ^ (natLog2 (m * mant) - 52 - s)) hb
    have hround : (m * mant / 2 ^ (natLog2 (m * mant) - 52)) *
        2 ^ (natLog2 (m * mant) - 52 - s) ≤
        roundNearestEven (m * mant) (natLog2 (m * mant) - 52) *
          2 ^ (natLog2 (m * mant) - 52 - s) :=
      Nat.mul_le_mul_right _ (roundNearestEven_ge _ _)
    have step3 : 2 ^ (natLog2 (m * mant) - 52 - s) ≤ m * mant / 2 ^ (s + 52) := by
      have hdiv : 2 ^ (natLog2 (m * mant) - 52 - s) = 2 ^ natLog2 (m * mant) / 2 ^ (s + 52) := by
        rw [Nat.pow_div (by omega) (by norm_num)]
        congr 1
        omega
      rw [hdiv]
      exact Nat.div_le_div_right hklow
    rw [hNs]
    exact le_trans key (le_trans (Nat.add_le_add hround step3) (Nat.le_succ _))
  · have step3 : m * mant / 2 ^ (natLog2 (m * mant) - 52) /
        2 ^ (s + 52 - natLog2 (m * mant)) = m * mant / 2 ^ s :=
      div_div_pow_eq (by omega) (by omega)
    have hmono : m * mant / 2 ^ (natLog2 (m * mant) - 52) /
        2 ^ (s + 52 - natLog2 (m * mant)) ≤
        roundNearestEven (m * mant) (natLog2 (m * mant) - 52) /
          2 ^ (s + 52 - natLog2 (m * mant)) :=
      Nat.div_le_div_right (roundNearestEven_ge _ _)
    rw [← step3]
    exact le_trans hmono (le_trans (Nat.le_add_right _ _) (Nat.le_succ _))

/-- `Math.floor(m * 0.7)` never exceeds `⌊0.7m⌋` by more than the
    53-bit rounding slack. -/
theorem floorMul07_le (m : Nat) :
    floorMul07 m ≤ 7 * m / 10 + 2 * (m / 4503599627370496) + 2 := by
  have h := jsFloorMul_le m 3152519739159347 52
  have e1 : (2 : Nat) ^ 52 = 4503599627370496 := by norm_num
  have e2 : (2 : Nat) ^ (52 + 52) = 20282409603651670423947251286016 := by norm_num
  rw [e1, e2] at h
  have ha : m * 3152519739159347 / 4503599627370496 < 7 * m / 10 + 1 := by
    rw [Nat.div_lt_iff_lt_mul (by norm_num)]
    omega
  have hb : m * 3152519739159347 / 20282409603651670423947251286016 <
      m / 4503599627370496 + 1 := by
    rw [Nat.div_lt_iff_lt_mul (by norm_num)]
    omega
  show jsFloorMul m 3152519739159347 52 ≤ _
  omega

/-- `Math.floor(m * 0.2)` never exceeds `⌊0.2m⌋` by more than the
    53-bit rounding slack. -/
theorem floorMul02_le (m : Nat) :
    floorMul02 m ≤ 2 * m / 10 + 2 * (m / 4503599627370496) + 2 := by
  have h := jsFloorMul_le m 3602879701896397 54
  have e1 : (2 : Nat) ^ 54 = 18014398509481984 := by norm_num
  have e2 : (2 : Nat) ^ (54 + 52) = 81129638414606681695789005144064 := by norm_num
  rw [e1, e2] at h
  have ha : m * 3602879701896397 / 18014398509481984 <
      2 * m / 10 + m / 4503599627370496 + 2 := by
    rw [Nat.div_lt_iff_lt_mul (by norm_num)]
    omega
  have hb : m * 3602879701896397 / 81129638414606681695789005144064 <
      m / 4503599627370496 + 1 := by
    rw [Nat.div_lt_iff_lt_mul (by norm_num)]
    omega
  show jsFloorMul m 3602879701896397 54 ≤ _
  omega

/-- `Math.floor(m * 0.2)` falls short of `⌊0.2m⌋` by at most the
    53-bit rounding slack. -/
theorem floorMul02_ge (m : Nat) :
    2 * m / 10 ≤ floorMul02 m + 2 * (m / 4503599627370496) + 2 := by
  have h := jsFloorMul_ge m 3602879701896397 54
  have e1 : (2 : Nat) ^ 54 = 18014398509481984 := by norm_num
  have e2 : (2 : Nat) ^ (54 + 52) = 81129638414606681695789005144064 := by norm_num
  rw [e1, e2] at h
  have ha : 2 * m / 10 ≤ m * 3602879701896397 / 18014398509481984 := by
    rw [Nat.le_div_iff_mul_le (by norm_num)]
    omega
  have hb : m * 3602879701896397 / 81129638414606681695789005144064 <
      m / 4503599627370496 + 1 := by
    rw [Nat.div_lt_iff_lt_mul (by norm_num)]
    omega
  have hshow : jsFloorMul m 3602879701896397 54 = floorMul02 m := rfl
  rw [hshow] at h
  omega

theorem floorMul07_le_self (m : Nat) : floorMul07 m ≤ m := by
  rcases Nat.lt_or_ge m 7 with h | h
  · interval_cases m <;> decide
  · have := floorMul07_le m
    omega

theorem floorMul02_le_self (m : Nat) : floorMul02 m ≤ m := by
  rcases Nat.lt_or_ge m 3 with h | h
  · interval_cases m <;> decide
  · have := floorMul02_le m
    omega

theorem smartTruncate_length (s : String) (m : Nat) (hs : m < s.length)
    (ht : 0 < floorMul02 m) :
    (smartTruncate s m).length =
      floorMul07 m + 33 + (natToDecimal (s.length - floorMul07 m - floorMul02 m)).length +
        floorMul02 m := by
  have h7 : ("\n\n... [" : String).length = 7 := rfl
  have h26 : (" characters omitted] ...\n\n" : String).length = 26 := rfl
  simp only [smartTruncate]
  rw [if_neg (by omega)]
  rw [jsSliceNeg, if_neg (by omega)]
  have hhead : floorMul07 m ≤ s.length := le_trans (floorMul07_le_self m) (le_of_lt hs)
  have htail : floorMul02 m ≤ s.length := le_trans (floorMul02_le_self m) (le_of_lt hs)
  simp only [String.length_append, strTake_length, strLastN_length s _ htail, h7, h26]
  omega

theorem keptCost_nil : keptCost [] = 0 := rfl

theorem keptCost_append_single (l : List Message) (m : Message) :
    keptCost (l ++ [m]) = keptCost l + (estimateTokens m.content + 4) := by
  simp [keptCost]

theorem keptCost_single (m : Message) : keptCost [m] = estimateTokens m.content + 4 := by
  simp [keptCost]

/-- The partially-included message of the trim loop fits the remaining
    budget: its content-token estimate plus overhead stays within
    `available - used`. -/
theorem truncatedMsg_cost {c : String} {avail used : Nat}
    (hsmall : c.length < 10 ^ 15)
    (hnofit : avail < used + (estimateTokens c + 4))
    (h100 : used + 100 ≤ avail)
    (h200 : 200 < 7 * (avail - used - 20) / 2) :
    used + (estimateTokens (smartTruncate c (7 * (avail - used - 20) / 2)) + 4) ≤ avail := by
  have h15 : (10 : Nat) ^ 15 = 1000000000000000 := by norm_num
  set rc := 7 * (avail - used - 20) / 2 with hrc
  have hlen : rc < c.length := by
    by_contra hle
    push_neg at hle
    have h1 : estimateTokens c ≤ (2 * rc + 6) / 7 := estimateTokens_le_of_length_le hle
    omega
  have hg2 := floorMul02_ge rc
  have ht : 0 < floorMul02 rc := by omega
  have hfm := smartTruncate_length c rc hlen ht
  have hb7 := floorMul07_le rc
  have hb2 := floorMul02_le rc
  have hd : (natToDecimal (c.length - floorMul07 rc - floorMul02 rc)).length ≤ 15 :=
    natToDecimal_length_le (by norm_num) (by omega)
  have hest := estimateTokens_le_of_length_le (Nat.le_of_eq hfm)
  omega

/-- The trim loop never admits more cost than the available budget. -/
theorem trimLoop_cost : ∀ (ms : List Message) (avail used : Nat),
    (∀ m ∈ ms, m.content.length < 10 ^ 15) → used ≤ avail →
    used + keptCost (trimLoop ms avail used) ≤ avail := by
  intro ms
  induction ms with
  | nil => intro avail used _ hu; simpa [trimLoop, keptCost_nil] using hu
  | cons m ms ih =>
    intro avail used hsmall hu
    simp only [trimLoop]
    split
    case isTrue h =>
      rw [keptCost_append_single]
      have := ih avail (used + (estimateTokens m.content + 4))
        (fun x hx => hsmall x (List.mem_cons_of_mem _ hx)) h
      omega
    case isFalse h =>
      split
      case isTrue h2 =>
        split
        case isTrue h3 =>
          rw [keptCost_single]
          exact truncatedMsg_cost (hsmall m (List.mem_cons_self ..)) (by omega) h2 h3
        case isFalse => simpa [keptCost_nil] using hu
      case isFalse => simpa [keptCost_nil] using hu

/-! ## C1 — path confinement of `runTool` arguments (tools.js `resolvePath`)

The check `resolved.startsWith(normalizedRoot)` appends no separator, so
a sibling directory whose name extends the root's name passes: with
workspace root `/ws`, the argument `../ws2/secret.txt` resolves to
`/ws2/secret.txt`, which is outside the root yet accepted.  The engine's
own `resolvePathInWorkspace` (agent.js) rejects the same input, showing
the intended behaviour. -/

/-- C1: the claim fails on tools.js `resolvePath`: a path argument whose
    resolution lands in a sibling directory of the workspace root is
    accepted although it is outside that root; the agent.js variant
    rejects it. -/
theorem resolvePath_sibling_escape :
    resolvePath "../ws2/secret.txt" "/ws" = Except.ok "/ws2/secret.txt" ∧
    insideWorkspace "/ws" "/ws2/secret.txt" = false ∧
    resolvePathInWorkspace "/ws" "../ws2/secret.txt" =
      Except.error "Security: path outside workspace denied for: ../ws2/secret.txt" := by
  decide

/-! ## C2 — behaviour at a step boundary after a stop request -/

/-- C2 (amended): when the stop flag is set at a step boundary, the run
    emits exactly one event — the final `"Agent stopped by user."` — and in
    particular no action event; the session is *not* removed from the
    registry, and its stop flag is reset. -/
theorem runLoop_stop_boundary (llm : String → Option String) (fuel : Nat)
    (oracle : List Directive) (s : AgentState)
    (hstop : s.stopRequested = true) (hfuel : 0 < fuel) :
    (runLoop llm fuel oracle s).events = [Event.sent (Directive.finalD stoppedByUserMsg)] ∧
    (∀ t a, Event.sent (Directive.action t a) ∉ (runLoop llm fuel oracle s).events) ∧
    (runLoop llm fuel oracle s).removed = false ∧
    (runLoop llm fuel oracle s).state.stopRequested = false := by
  cases fuel with
  | zero => omega
  | succ f => simp [runLoop, hstop]

/-- C2 witness: a concrete stopped session. -/
theorem runLoop_stop_boundary_witness :
    (runLoop (fun _ => none) 5 [] c2StopState).events =
      [Event.sent (Directive.finalD stoppedByUserMsg)] ∧
    (runLoop (fun _ => none) 5 [] c2StopState).removed = false :=
  ⟨(runLoop_stop_boundary (fun _ => none) 5 [] c2StopState rfl (by omega)).1,
   (runLoop_stop_boundary (fun _ => none) 5 [] c2StopState rfl (by omega)).2.2.1⟩

/-- C2 counterexample: the claim's removal conjunct is false — after the
    stop final the session is still in the registry (`removed = false`,
    where the claim requires `true`). -/
theorem runLoop_stop_keeps_session :
    (runLoop (fun _ => none) 5 [] c2StopState).events =
      [Event.sent (Directive.finalD "Agent stopped by user.")] ∧
    (runLoop (fun _ => none) 5 [] c2StopState).removed ≠ true := by
  refine ⟨rfl, ?_⟩
  decide

/-! ## C3 — `trimForContextWindow` versus the token budget -/

/-- C3 counterexample: lists of at most two messages are returned
    unchanged whatever the budget, so the output's estimated token count
    (12 here) exceeds the positive budget 1. -/
theorem trimForContextWindow_can_exceed_budget :
    trimForContextWindow c3TwoMessages 1 = c3TwoMessages ∧
    1 < estimateMessagesTokens (trimForContextWindow c3TwoMessages 1) := by
  constructor
  · rfl
  · decide

/-- C3 (amended): for more than two messages, JS-representable contents
    and a budget exceeding the system prompt estimate plus the 1024
    reserved reply tokens, the output starts with the system message and
    the loop's own accounting of the kept non-system messages — content
    tokens plus four per message — stays within
    `budget - systemTokens - 1024`.  (The full `estimateMessagesTokens`
    of the output is *not* bounded by the budget: the estimator also
    counts role tokens and the system message's overhead, and two-message
    lists bypass trimming entirely.) -/
theorem trimForContextWindow_cost (system : Message) (rest : List Message) (maxTokens : Nat)
    (hlen : 2 < (system :: rest).length)
    (hsmall : ∀ m ∈ rest, m.content.length < 10 ^ 15)
    (hbudget : estimateTokens system.content + 1024 < maxTokens) :
    (trimForContextWindow (system :: rest) maxTokens).head? = some system ∧
    keptCost ((trimForContextWindow (system :: rest) maxTokens).tail) ≤
      maxTokens - (estimateTokens system.content + 1024) := by
  have hm0 : ¬ maxTokens = 0 := by omega
  have hlen' : ¬ (system :: rest).length ≤ 2 := by omega
  simp only [trimForContextWindow, if_neg hlen', if_neg hm0]
  rw [if_neg (by omega)]
  refine ⟨rfl, ?_⟩
  simp only [List.tail_cons]
  have := trimLoop_cost rest.reverse (maxTokens - estimateTokens system.content - 1024) 0
    (fun m hm => hsmall m (List.mem_reverse.mp hm)) (Nat.zero_le _)
  omega

/-- C3 witness: a four-message conversation under a 2000-token budget. -/
theorem trimForContextWindow_cost_witness :
    keptCost ((trimForContextWindow (Message.mk "system" "" :: c3Rest) 2000).tail) ≤
      2000 - (estimateTokens "" + 1024) :=
  (trimForContextWindow_cost (Message.mk "system" "") c3Rest 2000
    (by decide) (by decide) (by decide)).2

/-! ## C4 — shape of a successful compaction -/

/-- On the compacting branch, `compactConversation` keeps the system
    message in front, one summary message, and then the kept suffix. -/
theorem compactConversation_eq (system : Message) (rest : List Message)
    (llm : String → Option String)
    (h3 : ¬ (system :: rest).length ≤ 3)
    (h2 : ¬ (rest.take (rest.length - min 4 rest.length)).length < 2) :
    (compactConversation (system :: rest) llm).messages.length =
      2 + (rest.drop (rest.length - min 4 rest.length)).length ∧
    (compactConversation (system :: rest) llm).messages.head? = some system ∧
    (compactConversation (system :: rest) llm).messages.drop 2 =
      rest.drop (rest.length - min 4 rest.length) := by
  simp only [compactConversation, if_neg h3]
  rw [if_neg h2]
  exact ⟨by simp; omega, rfl, rfl⟩

/-- C4: whenever compaction reports `compacted = true`, the result is no
    longer than the input, its head is the original system message, the
    input had at least four non-system messages, and the last four of them
    appear verbatim and in order as the tail of the result (everything
    before them was rewritten into the single summary message). -/
theorem compactConversation_shape (msgs : List Message) (llm : String → Option String)
    (h : (compactConversation msgs llm).compacted = true) :
    (compactConversation msgs llm).messages.length ≤ msgs.length ∧
    (compactConversation msgs llm).messages.head? = msgs.head? ∧
    4 ≤ msgs.tail.length ∧
    (compactConversation msgs llm).messages.drop 2 =
      msgs.tail.drop (msgs.tail.length - 4) := by
  rcases msgs with _ | ⟨system, rest⟩
  · simp [compactConversation] at h
  · by_cases h3 : (system :: rest).length ≤ 3
    · rw [compactConversation, if_pos h3] at h
      simp at h
    · by_cases h2 : (rest.take (rest.length - min 4 rest.length)).length < 2
      · rw [compactConversation, if_neg h3] at h
        rw [if_pos h2] at h
        simp at h
      · obtain ⟨hlen, hhead, hdrop⟩ := compactConversation_eq system rest llm h3 h2
        have hL : 4 < rest.length := by
          rcases le_or_lt rest.length 4 with hle | hlt
          · exact absurd (by simp [List.length_take]; omega) h2
          · exact hlt
        have hL6 : 6 ≤ rest.length := by
          simp only [List.length_take] at h2
          omega
        have hkeep : min 4 rest.length = 4 := by omega
        rw [hkeep] at hlen hdrop
        refine ⟨?_, by simpa using hhead, ?_, ?_⟩
        · rw [hlen]; simp [List.length_drop]; omega
        · simp; omega
        · simpa using hdrop

/-- C4 witness: a seven-message conversation compacts to six messages
    whose tail is the last four non-system input messages. -/
theorem compactConversation_shape_witness :
    (compactConversation c4SevenMessages (fun _ => some "sum")).messages.length ≤
      c4SevenMessages.length ∧
    (compactConversation c4SevenMessages (fun _ => some "sum")).messages.drop 2 =
      c4SevenMessages.tail.drop (c4SevenMessages.tail.length - 4) :=
  ⟨(compactConversation_shape c4SevenMessages (fun _ => some "sum") (by decide)).1,
   (compactConversation_shape c4SevenMessages (fun _ => some "sum") (by decide)).2.2.2⟩

/-! ## C7 — `smartTruncate` shape -/

/-- C7 counterexample: for `maxChars = 4` the tail budget `⌊0.2·4⌋` is `0`
    and JS `slice(-0)` returns the whole string, so the result is not the
    claimed head + separator + last-0-characters. -/
theorem smartTruncate_claim_false_at_4 :
    smartTruncate "hello!" 4 ≠ smartTruncateClaim "hello!" 4 := by
  decide

/-- C7 (amended): strings within the budget are returned unchanged; above
    it, the result is the first `floorMul07 m` characters — the IEEE-754
    value of `Math.floor(m * 0.7)`, which is one below the mathematical
    `⌊0.7·m⌋` at `m = 90, 170, 180, 330, …` where the double product
    rounds just under the integer (last two conjuncts: 62, not 63, at
    `m = 90`) — then the separator naming the omitted count
    `length - floorMul07 m - floorMul02 m`, then the last `floorMul02 m`
    characters; except that when `floorMul02 m = 0` (`m ≤ 4`) the whole
    string follows the separator instead (JS `slice(-0)`). -/
theorem smartTruncate_characterisation (s : String) (m : Nat) :
    (s.length ≤ m → smartTruncate s m = s) ∧
    (m < s.length → 0 < floorMul02 m →
      smartTruncate s m =
        strTake s (floorMul07 m) ++ "\n\n... [" ++
          natToDecimal (s.length - floorMul07 m - floorMul02 m) ++
          " characters omitted] ...\n\n" ++ strLastN s (floorMul02 m)) ∧
    (m < s.length → floorMul02 m = 0 →
      smartTruncate s m =
        strTake s (floorMul07 m) ++ "\n\n... [" ++
          natToDecimal (s.length - floorMul07 m) ++
          " characters omitted] ...\n\n" ++ s) ∧
    floorMul07 90 = 62 ∧ 90 * 7 / 10 = 63 := by
  refine ⟨fun h => by simp [smartTruncate, h], fun h ht => ?_, fun h ht => ?_,
    by decide, by decide⟩
  · rw [smartTruncate, if_neg (by omega)]
    simp [jsSliceNeg, Nat.pos_iff_ne_zero.mp ht]
  · rw [smartTruncate, if_neg (by omega)]
    simp [jsSliceNeg, ht]

/-- C7 witness: the truncated shape at a concrete string and budget. -/
theorem smartTruncate_characterisation_witness :
    smartTruncate "abcdefghijklmnopqrstuvwxyz" 10 =
      strTake "abcdefghijklmnopqrstuvwxyz" 7 ++ "\n\n... [" ++ natToDecimal 17 ++
        " characters omitted] ...\n\n" ++ strLastN "abcdefghijklmnopqrstuvwxyz" 2 := by
  have h := (smartTruncate_characterisation "abcdefghijklmnopqrstuvwxyz" 10).2.1
    (by decide) (by decide)
  rw [h]
  decide

/-! ## C5 — tool-result truncation -/

theorem smartTruncate_length_le {s : String} {m : Nat} (hm : 600 ≤ m)
    (hs : s.length < 10 ^ 15) : (smartTruncate s m).length ≤ m := by
  by_cases h : s.length ≤ m
  · rw [smartTruncate, if_pos h]; exact h
  · have hlt : m < s.length := by omega
    have hg2 := floorMul02_ge m
    have hb7 := floorMul07_le m
    have hb2 := floorMul02_le m
    have ht : 0 < floorMul02 m := by omega
    rw [smartTruncate_length s m hlt ht]
    have h15 : (10 : Nat) ^ 15 = 1000000000000000 := by norm_num
    have hd : (natToDecimal (s.length - floorMul07 m - floorMul02 m)).length ≤ 15 :=
      natToDecimal_length_le (by norm_num) (by omega)
    omega

/-- C5 counterexample helper: the number of `files` entries of a result. -/
def filesCount : ToolValue → Nat
  | ToolValue.obj cl => (cl.files.getD []).length
  | ToolValue.str _ => 0

theorem flatten_map_escape_id (l : List Char) (h : ∀ c ∈ l, jsonEscapeChar c = [c]) :
    (l.map jsonEscapeChar).flatten = l := by
  induction l with
  | nil => rfl
  | cons c cs ih =>
    simp only [List.map_cons, List.flatten_cons]
    rw [h c (List.mem_cons_self ..), ih (fun x hx => h x (List.mem_cons_of_mem _ hx))]
    rfl

theorem jsonEscape_eq_self (s : String) (h : ∀ c ∈ s.data, jsonEscapeChar c = [c]) :
    jsonEscape s = s := by
  cases s with
  | mk l =>
    show (⟨(l.map jsonEscapeChar).flatten⟩ : String) = ⟨l⟩
    exact congrArg String.mk (flatten_map_escape_id l h)

theorem joinSep_length (sep : String) : ∀ (l : List String), l ≠ [] →
    (joinSep sep l).length =
      (l.map String.length).sum + (l.length - 1) * sep.length := by
  intro l
  induction l with
  | nil => intro h; exact absurd rfl h
  | cons x tl ih =>
    intro _
    cases tl with
    | nil => simp [joinSep]
    | cons y tl2 =>
      have hrec := ih (by simp)
      show (x ++ sep ++ joinSep sep (y :: tl2)).length = _
      rw [String.length_append, String.length_append, hrec]
      simp only [List.map_cons, List.sum_cons, List.length_cons, Nat.succ_sub_one,
        Nat.succ_mul]
      omega

theorem c5Str_escape : jsonEscape c5Str = c5Str :=
  jsonEscape_eq_self _ (by
    intro c hc
    have hceq := List.eq_of_mem_replicate hc
    subst hceq
    rfl)

theorem c5Note_escape : jsonEscape c5Note = c5Note :=
  jsonEscape_eq_self _ (by decide)

theorem jsonStr_c5Str_length : (jsonStr c5Str).length = 38 := by
  rw [jsonStr, c5Str_escape]; decide

theorem jsonStr_c5Note_length : (jsonStr c5Note).length = 22 := by
  rw [jsonStr, c5Note_escape]; decide

theorem c5Big_length : (jsonStringify c5BigFiles).length = 3209 := by
  show ("\x7b" ++ ("\"files\":" ++ jsonArr (List.replicate 82 c5Str)) ++ "\x7d").length = 3209
  rw [jsonArr, List.map_replicate]
  simp only [String.length_append]
  rw [joinSep_length "," (List.replicate 82 (jsonStr c5Str)) (by simp)]
  simp only [List.map_replicate, jsonStr_c5Str_length, List.sum_replicate, smul_eq_mul,
    List.length_replicate]
  decide

theorem c5Clone_length : (jsonStringify c5Clone).length = 3154 := by
  show ("\x7b" ++ ("\"files\":" ++ jsonArr c5TruncFiles) ++ "\x7d").length = 3154
  rw [jsonArr, c5TruncFiles, List.map_append, List.map_replicate, List.map_cons, List.map_nil]
  simp only [String.length_append]
  rw [joinSep_length "," (List.replicate 80 (jsonStr c5Str) ++ [jsonStr c5Note]) (by simp)]
  simp only [List.map_append, List.map_replicate, List.map_cons, List.map_nil,
    jsonStr_c5Str_length, jsonStr_c5Note_length, List.sum_append, List.sum_replicate,
    smul_eq_mul, List.sum_cons, List.sum_nil, List.length_append, List.length_replicate,
    List.length_cons, List.length_nil]
  decide

/-- `truncateToolResult` on the 82-file result: over budget, so the files
    array is cut to 80 entries plus the note, and the clone (serialising to
    3154 characters, within budget + slack) is returned as an object. -/
theorem c5_cloneOf : cloneOf c5BigFiles = c5Clone := by
  show (⟨truncStrField MAX_FILE_CONTENT_CHARS none, truncStrField 2000 none,
      truncStrField 1000 none, truncFilesField (some (List.replicate 82 c5Str)),
      (truncMatchesField none none).1, (truncMatchesField none none).2⟩ : ToolResult) = c5Clone
  simp only [truncStrField, truncFilesField, truncMatchesField]
  rw [if_pos (by simp)]
  rw [List.take_replicate, List.length_replicate]
  rfl

theorem c5_truncate_eq : truncateToolResult c5BigFiles = ToolValue.obj c5Clone := by
  rw [truncateToolResult, if_neg (by rw [c5Big_length]; decide), c5_cloneOf,
    if_pos (by rw [c5Clone_length]; decide)]

/-- C5 counterexample: an over-budget result with 82 files is truncated to
    80 entries *plus the pushed note entry* — 81 items, where the claim
    allows at most 80. -/
theorem truncateToolResult_files_81 :
    3000 < (jsonStringify c5BigFiles).length ∧
    filesCount (truncateToolResult c5BigFiles) = 81 := by
  refine ⟨by rw [c5Big_length]; omega, ?_⟩
  rw [c5_truncate_eq]
  simp [filesCount, c5Clone, c5TruncFiles]

/-- A string field emerging from `truncStrField` fits its limit. -/
theorem truncStrField_le (lim : Nat) (h600 : 600 ≤ lim) (c : Option String)
    (hsz : ∀ x, c = some x → x.length < 10 ^ 15) :
    ∀ s, truncStrField lim c = some s → s.length ≤ lim := by
  rcases c with _ | x
  · intro s hs; simp [truncStrField] at hs
  · intro s hs
    simp only [truncStrField] at hs
    split at hs
    · cases hs
      exact smartTruncate_length_le h600 (hsz x rfl)
    · cases hs
      omega

theorem truncFilesField_le (f : Option (List String)) :
    ∀ l, truncFilesField f = some l → l.length ≤ 81 := by
  rcases f with _ | fs
  · intro l hl; simp [truncFilesField] at hl
  · intro l hl
    simp only [truncFilesField] at hl
    split at hl
    · cases hl
      simp [List.length_take]
    · cases hl
      omega

/-- When more than 30 matches are present, the field truncation keeps the
    first 30 and records the counting note in `truncated`. -/
theorem truncMatchesField_note (t : Option String) (ms : List String)
    (h : 30 < ms.length) :
    truncMatchesField t (some ms) =
      (some (ms.take 30),
       some ("Showing 30 of " ++ natToDecimal ms.length ++ " matches")) := by
  simp [truncMatchesField, h]

theorem truncMatchesField_le (t : Option String) (m : Option (List String)) :
    ∀ l, (truncMatchesField t m).1 = some l → l.length ≤ 30 := by
  rcases m with _ | ms
  · intro l hl; simp [truncMatchesField] at hl
  · intro l hl
    simp only [truncMatchesField] at hl
    split at hl
    · simp only at hl
      cases hl
      simp [List.length_take]
    · simp only at hl
      cases hl
      omega

/-- C5 (amended): results whose serialisation is within the 3000-character
    budget are returned unchanged; for larger object results that stay
    objects after field truncation, `content` is at most 4000 characters,
    `stdout` at most 2000, `stderr` at most 1000, `files` at most 81
    entries (80 kept plus the note entry), and `matches` at most 30 — when
    more than 30 were present, exactly the first 30 are kept and the note
    `"Showing 30 of N matches"` is recorded in `truncated`; when the
    re-serialised clone still exceeds 3500 characters the result instead
    degrades to the smart-truncated JSON string of the clone. -/
theorem truncateToolResult_bounds (r : ToolResult)
    (hc : ∀ x, r.content = some x → x.length < 10 ^ 15)
    (ho : ∀ x, r.stdout = some x → x.length < 10 ^ 15)
    (he : ∀ x, r.stderr = some x → x.length < 10 ^ 15) :
    ((jsonStringify r).length ≤ 3000 → truncateToolResult r = ToolValue.obj r) ∧
    (∀ cl, truncateToolResult r = ToolValue.obj cl → 3000 < (jsonStringify r).length →
      (∀ s, cl.content = some s → s.length ≤ 4000) ∧
      (∀ s, cl.stdout = some s → s.length ≤ 2000) ∧
      (∀ s, cl.stderr = some s → s.length ≤ 1000) ∧
      (∀ l, cl.files = some l → l.length ≤ 81) ∧
      (∀ l, cl.«matches» = some l → l.length ≤ 30) ∧
      (∀ ms, r.«matches» = some ms → 30 < ms.length →
        cl.«matches» = some (ms.take 30) ∧
        cl.truncated = some ("Showing 30 of " ++ natToDecimal ms.length ++ " matches"))) ∧
    (3000 < (jsonStringify r).length → 3500 < (jsonStringify (cloneOf r)).length →
      truncateToolResult r =
        ToolValue.str (smartTruncate (jsonStringify (cloneOf r)) 3000)) := by
  refine ⟨?_, ?_, ?_⟩
  · intro hle
    rw [truncateToolResult,
      if_pos (show (jsonStringify r).length ≤ MAX_TOOL_RESULT_CHARS by
        simpa [MAX_TOOL_RESULT_CHARS] using hle)]
  · intro cl hcl hbig
    rw [truncateToolResult,
      if_neg (show ¬ (jsonStringify r).length ≤ MAX_TOOL_RESULT_CHARS by
        simp only [MAX_TOOL_RESULT_CHARS]; omega)] at hcl
    split at hcl
    · have hcl2 : cloneOf r = cl := (ToolValue.obj.injEq ..).mp hcl
      subst hcl2
      refine ⟨?_, ?_, ?_, ?_, ?_, ?_⟩
      · exact truncStrField_le MAX_FILE_CONTENT_CHARS (by norm_num [MAX_FILE_CONTENT_CHARS])
          r.content hc
      · exact truncStrField_le 2000 (by norm_num) r.stdout ho
      · exact truncStrField_le 1000 (by norm_num) r.stderr he
      · exact truncFilesField_le r.files
      · exact truncMatchesField_le r.truncated r.«matches»
      · intro ms hms hlen
        have hnote := truncMatchesField_note r.truncated ms hlen
        constructor
        · show (truncMatchesField r.truncated r.«matches»).1 = _
          rw [hms, hnote]
        · show (truncMatchesField r.truncated r.«matches»).2 = _
          rw [hms, hnote]
    · exact absurd hcl (by simp)
  · intro hbig hbig2
    rw [truncateToolResult,
      if_neg (show ¬ (jsonStringify r).length ≤ MAX_TOOL_RESULT_CHARS by
        simp only [MAX_TOOL_RESULT_CHARS]; omega),
      if_neg (show ¬ (jsonStringify (cloneOf r)).length ≤ MAX_TOOL_RESULT_CHARS + 500 by
        simp only [MAX_TOOL_RESULT_CHARS]; omega)]
    rfl

/-- C5 witness: the amended bounds at the 82-file result. -/
theorem truncateToolResult_bounds_witness : c5TruncFiles.length ≤ 81 :=
  ((truncateToolResult_bounds c5BigFiles
      (fun _ hx => by simp [c5BigFiles] at hx)
      (fun _ hx => by simp [c5BigFiles] at hx)
      (fun _ hx => by simp [c5BigFiles] at hx)).2.1
    c5Clone c5_truncate_eq (by rw [c5Big_length]; omega)).2.2.2.1 c5TruncFiles rfl

/-! ## C6 — auto-pagination of `read_file` -/

theorem digitChar_ne_nl {r : Nat} (h : r < 10) : digitChar r ≠ '\n' := by
  interval_cases r <;> decide

theorem decAux_no_nl : ∀ (fuel n : Nat), '\n' ∉ decAux fuel n := by
  intro fuel
  induction fuel with
  | zero => intro n; simp [decAux]
  | succ fuel ih =>
    intro n
    match n with
    | 0 => simp [decAux]
    | Nat.succ m =>
      simp only [decAux, List.mem_append, List.mem_cons, List.not_mem_nil, or_false]
      rintro (hmem | hd)
      · exact ih _ hmem
      · exact digitChar_ne_nl (Nat.mod_lt _ (by omega)) hd.symm

theorem natToDecimal_no_nl (n : Nat) : '\n' ∉ (natToDecimal n).data := by
  unfold natToDecimal
  split
  · decide
  · exact decAux_no_nl n n

theorem jsSplitAux_no_nl_eq (a : List Char) :
    ∀ cur, '\n' ∉ a → jsSplitAux a cur = [⟨cur.reverse ++ a⟩] := by
  induction a with
  | nil => intro cur _; simp [jsSplitAux]
  | cons c cs ih =>
    intro cur ha
    have hc : ¬ c = '\n' := fun h => ha (h ▸ List.mem_cons_self ..)
    rw [jsSplitAux, if_neg hc, ih (c :: cur) (fun h => ha (List.mem_cons_of_mem _ h))]
    simp

theorem jsSplitAux_append_nl (a : List Char) :
    ∀ (b cur : List Char), '\n' ∉ a →
      jsSplitAux (a ++ '\n' :: b) cur = (⟨cur.reverse ++ a⟩ : String) :: jsSplitAux b [] := by
  induction a with
  | nil => intro b cur _; simp [jsSplitAux]
  | cons c cs ih =>
    intro b cur ha
    have hc : ¬ c = '\n' := fun h => ha (h ▸ List.mem_cons_self ..)
    rw [List.cons_append, jsSplitAux, if_neg hc,
      ih b (c :: cur) (fun h => ha (List.mem_cons_of_mem _ h))]
    simp

theorem jsSplitAux_mem_no_nl : ∀ (l cur : List Char), '\n' ∉ cur →
    ∀ x ∈ jsSplitAux l cur, '\n' ∉ x.data := by
  intro l
  induction l with
  | nil =>
    intro cur hcur x hx
    simp only [jsSplitAux, List.mem_singleton] at hx
    subst hx
    simpa using hcur
  | cons c cs ih =>
    intro cur hcur x hx
    by_cases hc : c = '\n'
    · rw [jsSplitAux, if_pos hc] at hx
      rcases List.mem_cons.mp hx with h | h
      · subst h; simpa using hcur
      · exact ih [] (by simp) x h
    · rw [jsSplitAux, if_neg hc] at hx
      exact ih (c :: cur) (by simp [hcur, Ne.symm hc]) x hx

theorem jsSplit_joinSep : ∀ (ls : List String), ls ≠ [] →
    (∀ x ∈ ls, '\n' ∉ x.data) → jsSplitNl (joinSep "\n" ls) = ls := by
  intro ls
  induction ls with
  | nil => intro h; exact absurd rfl h
  | cons x tl ih =>
    intro _ hnl
    cases tl with
    | nil =>
      show jsSplitAux x.data [] = [x]
      rw [jsSplitAux_no_nl_eq x.data [] (hnl x (List.mem_cons_self ..))]
      rfl
    | cons y tl2 =>
      have hx : '\n' ∉ x.data := hnl x (List.mem_cons_self ..)
      show jsSplitAux (x ++ "\n" ++ joinSep "\n" (y :: tl2)).data [] = _
      have hdata : (x ++ "\n" ++ joinSep "\n" (y :: tl2)).data =
          x.data ++ '\n' :: (joinSep "\n" (y :: tl2)).data := by
        rw [strData_append, strData_append]
        simp
      rw [hdata, jsSplitAux_append_nl x.data _ [] hx]
      have := ih (by simp) (fun z hz => hnl z (List.mem_cons_of_mem _ hz))
      rw [show (⟨List.reverse [] ++ x.data⟩ : String) = x from rfl]
      exact congrArg (x :: ·) this

theorem numberLinesFrom_length : ∀ (i : Nat) (ls : List String),
    (numberLinesFrom i ls).length = ls.length := by
  intro i ls
  induction ls generalizing i with
  | nil => rfl
  | cons l tl ih => simp [numberLinesFrom, ih]

theorem numberLinesFrom_no_nl : ∀ (i : Nat) (ls : List String),
    (∀ x ∈ ls, '\n' ∉ x.data) → ∀ y ∈ numberLinesFrom i ls, '\n' ∉ y.data := by
  intro i ls
  induction ls generalizing i with
  | nil => intro _ y hy; simp [numberLinesFrom] at hy
  | cons l tl ih =>
    intro hnl y hy
    rcases List.mem_cons.mp hy with h | h
    · subst h
      rw [strData_append, strData_append]
      intro hmem
      rcases List.mem_append.mp hmem with hmem | hmem
      · rcases List.mem_append.mp hmem with hmem | hmem
        · exact natToDecimal_no_nl _ hmem
        · simp at hmem
      · exact hnl l (List.mem_cons_self ..) hmem
    · exact ih (i + 1) (fun z hz => hnl z (List.mem_cons_of_mem _ hz)) y h

/-- C6: with no offset and no limit, a file of more than 200 lines yields
    exactly the first 200 lines (numbered), the true total line count, and
    the note naming that total and offering offset/limit; the returned
    content indeed has exactly 200 lines. -/
theorem readFile_autoPaginates (p content : String)
    (h : 200 < (jsSplitNl content).length) :
    readFileRun p content none none =
      { file := p,
        content := joinSep "\n" (numberLinesFrom 0 ((jsSplitNl content).take 200)),
        totalLines := (jsSplitNl content).length,
        showing := some ("1-" ++ natToDecimal MAX_LINES_AUTO),
        note := some ("File has " ++ natToDecimal (jsSplitNl content).length ++
          " lines. Showing first " ++ natToDecimal MAX_LINES_AUTO ++
          ". Use offset/limit args to read more.") } ∧
    (jsSplitNl (readFileRun p content none none).content).length = 200 := by
  have htake : ((jsSplitNl content).take 200).length = 200 := by
    rw [List.length_take]; omega
  have heq : readFileRun p content none none =
      { file := p,
        content := joinSep "\n" (numberLinesFrom 0 ((jsSplitNl content).take 200)),
        totalLines := (jsSplitNl content).length,
        showing := some ("1-" ++ natToDecimal MAX_LINES_AUTO),
        note := some ("File has " ++ natToDecimal (jsSplitNl content).length ++
          " lines. Showing first " ++ natToDecimal MAX_LINES_AUTO ++
          ". Use offset/limit args to read more.") } := by
    rw [readFileRun]
    rw [if_neg (by simp [truthyNat])]
    rw [if_pos (by simpa [MAX_LINES_AUTO] using h)]
    rfl
  refine ⟨heq, ?_⟩
  rw [heq]
  have hnl : ∀ y ∈ numberLinesFrom 0 ((jsSplitNl content).take 200), '\n' ∉ y.data :=
    numberLinesFrom_no_nl 0 _
      (fun x hx => jsSplitAux_mem_no_nl content.data [] (by simp) x (List.take_subset _ _ hx))
  have hne : numberLinesFrom 0 ((jsSplitNl content).take 200) ≠ [] := by
    intro hempty
    have := numberLinesFrom_length 0 ((jsSplitNl content).take 200)
    rw [hempty] at this
    simp [htake] at this
  rw [jsSplit_joinSep _ hne hnl, numberLinesFrom_length, htake]

/-- C6 witness: a concrete 201-line file returns 200 lines plus the note
    with the total 201. -/
theorem readFile_autoPaginates_witness :
    (jsSplitNl (readFileRun "big.txt" c6File201 none none).content).length = 200 ∧
    (readFileRun "big.txt" c6File201 none none).totalLines = 201 ∧
    (readFileRun "big.txt" c6File201 none none).note =
      some ("File has " ++ natToDecimal 201 ++ " lines. Showing first " ++
        natToDecimal MAX_LINES_AUTO ++ ". Use offset/limit args to read more.") := by
  refine ⟨(readFile_autoPaginates "big.txt" c6File201 (by decide)).2, ?_, ?_⟩
  · rw [(readFile_autoPaginates "big.txt" c6File201 (by decide)).1]
    decide
  · rw [(readFile_autoPaginates "big.txt" c6File201 (by decide)).1]
    decide

/-! ## C8 — handling of a `final` directive -/

/-- C8: when a `final` arrives, the consecutive-final counter becomes
    `s.consecutiveFinals + 1`; if tasks were planned (`totalTasks > 0`),
    not all are completed, and that counter is at most 2, the engine
    appends the user-role continuation nudge and keeps looping; otherwise
    it saves a checkpoint and a persisted summary, is removed from the
    registry and the run ends. -/
theorem handleDirective_final (s : AgentState) (c : String) :
    ((0 < s.totalTasks ∧ s.completedTasks < s.totalTasks ∧ s.consecutiveFinals + 1 ≤ 2) →
      (handleDirective s (Directive.finalD c)).control = Control.continueLoop ∧
      (handleDirective s (Directive.finalD c)).state.messages =
        s.messages ++ [Message.mk "assistant" (directiveJson (Directive.finalD c)),
                       Message.mk "user" (finalNudgeMsg s.completedTasks s.totalTasks)] ∧
      (handleDirective s (Directive.finalD c)).events =
        [Event.sent (Directive.finalD c),
         Event.sent (Directive.thought (continuingMsg s.completedTasks s.totalTasks))]) ∧
    (¬ (0 < s.totalTasks ∧ s.completedTasks < s.totalTasks ∧ s.consecutiveFinals + 1 ≤ 2) →
      (handleDirective s (Directive.finalD c)).control = Control.halt true ∧
      (handleDirective s (Directive.finalD c)).effects =
        [Effect.saveCheckpoint, Effect.saveSummary]) := by
  simp only [handleDirective, afterSend]
  constructor
  · intro h
    rw [if_pos (by simpa using h)]
    simp
  · intro h
    rw [if_neg (by simpa using h)]
    simp

/-- C8 witness: one task of three done, first final — the nudge is
    appended and the run continues. -/
theorem handleDirective_final_witness :
    (handleDirective c8NudgeState (Directive.finalD "All done.")).control =
      Control.continueLoop ∧
    (handleDirective c8NudgeState (Directive.finalD "All done.")).state.messages =
      c8NudgeState.messages ++
        [Message.mk "assistant" (directiveJson (Directive.finalD "All done.")),
         Message.mk "user" (finalNudgeMsg 1 3)] :=
  ⟨((handleDirective_final c8NudgeState "All done.").1 (by decide)).1,
   ((handleDirective_final c8NudgeState "All done.").1 (by decide)).2.1⟩

/-! ## C9 — a `delegate` directive in agent (non-plus) mode -/

/-- C9 counterexample: on the first delegate of a fresh agent-mode session
    only the assistant echo is appended — no JSON-format/anti-loop nudge
    user message is injected at that step, contrary to the claim. -/
theorem delegate_agentMode_no_nudge_on_first :
    (handleDirective c9DelegateState (Directive.delegate ["a", "b"])).state.messages =
      c9DelegateState.messages ++
        [Message.mk "assistant" (directiveJson (Directive.delegate ["a", "b"]))] ∧
    Message.mk "user" antiLoopNudgeMsg ∉
      (handleDirective c9DelegateState (Directive.delegate ["a", "b"])).state.messages := by
  constructor
  · rfl
  · decide

/-- C9 (amended): in agent (non-plus) mode a delegate directive runs no
    tool, no delegation and no file I/O (no effects at all); it is
    forwarded to the client, echoed as an assistant message, counted as a
    step without action, and the loop continues; the anti-loop nudge user
    message is appended only when this makes two or more consecutive
    steps without an action. -/
theorem handleDirective_delegate_agentMode (s : AgentState) (tasks : List String)
    (hplus : s.agentPlus = false) :
    (handleDirective s (Directive.delegate tasks)).effects = [] ∧
    (handleDirective s (Directive.delegate tasks)).control = Control.continueLoop ∧
    (handleDirective s (Directive.delegate tasks)).events =
      [Event.sent (Directive.delegate tasks)] ∧
    (handleDirective s (Directive.delegate tasks)).state.consecutiveStepsWithoutAction =
      s.consecutiveStepsWithoutAction + 1 ∧
    (handleDirective s (Directive.delegate tasks)).state.messages =
      (if 2 ≤ s.consecutiveStepsWithoutAction + 1 then
        s.messages ++ [Message.mk "assistant" (directiveJson (Directive.delegate tasks)),
                       Message.mk "user" antiLoopNudgeMsg]
      else
        s.messages ++ [Message.mk "assistant" (directiveJson (Directive.delegate tasks))]) := by
  simp only [handleDirective, afterSend]
  rw [if_neg (by simp [hplus])]
  split
  · simp_all
  · simp_all

/-- C9 witness: the amended statement at a fresh agent-mode session. -/
theorem handleDirective_delegate_agentMode_witness :
    (handleDirective c9DelegateState (Directive.delegate ["t1", "t2"])).effects = [] ∧
    (handleDirective c9DelegateState (Directive.delegate ["t1", "t2"])).control =
      Control.continueLoop :=
  ⟨(handleDirective_delegate_agentMode c9DelegateState ["t1", "t2"] rfl).1,
   (handleDirective_delegate_agentMode c9DelegateState ["t1", "t2"] rfl).2.1⟩

/-! ## C10 — `resolvePathInWorkspace` reinterprets absolute paths -/

theorem dropWhile_head_false {α : Type} (p : α → Bool) :
    ∀ (l : List α) (c : α) (cs : List α), l.dropWhile p = c :: cs → p c = false := by
  intro l
  induction l with
  | nil => intro c cs h; cases h
  | cons a tl ih =>
    intro c cs h
    rw [List.dropWhile_cons] at h
    split at h
    · exact ih c cs h
    · rename_i hpa
      cases h
      simpa using hpa

theorem stripLeadingSlashes_not_abs (fp : String) :
    jsStartsWith (stripLeadingSlashes fp) "/" = false := by
  show (("/" : String).data.isPrefixOf (fp.data.dropWhile (fun c => c = '/'))) = false
  cases hd : fp.data.dropWhile (fun c => c = '/') with
  | nil => rfl
  | cons c cs =>
    have hc := dropWhile_head_false (fun c => c = '/') fp.data c cs hd
    simp only [decide_eq_false_iff_not] at hc
    show (['/'].isPrefixOf (c :: cs)) = false
    simp [List.isPrefixOf, Ne.symm hc]

theorem pathSegsAux_append (a : List Char) :
    ∀ (b cur : List Char),
      pathSegsAux (a ++ '/' :: b) cur = pathSegsAux a cur ++ pathSegsAux b [] := by
  induction a with
  | nil =>
    intro b cur
    by_cases h : cur.isEmpty <;> simp [pathSegsAux, h]
  | cons c cs ih =>
    intro b cur
    by_cases hc : c = '/'
    · subst hc
      by_cases h : cur.isEmpty <;> simp [pathSegsAux, h, ih]
    · simp [pathSegsAux, hc, ih]

theorem pathSegsAux_mem_ok : ∀ (l cur : List Char), '/' ∉ cur →
    ∀ x ∈ pathSegsAux l cur, x ≠ [] ∧ '/' ∉ x := by
  intro l
  induction l with
  | nil =>
    intro cur hcur x hx
    rw [pathSegsAux] at hx
    split at hx
    · simp at hx
    · rename_i hne
      rw [List.mem_singleton] at hx
      subst hx
      constructor
      · simpa [List.isEmpty_iff] using hne
      · simpa using hcur
  | cons c cs ih =>
    intro cur hcur x hx
    rw [pathSegsAux] at hx
    split at hx
    · split at hx
      · exact ih [] (by simp) x hx
      · rename_i hne
        rcases List.mem_cons.mp hx with h | h
        · subst h
          constructor
          · simpa [List.isEmpty_iff] using hne
          · simpa using hcur
        · exact ih [] (by simp) x h
    · refine ih (c :: cur) ?_ x hx
      intro hmem
      rcases List.mem_cons.mp hmem with h | h
      · exact absurd h.symm (by assumption)
      · exact hcur h

theorem normSegsAux_mem : ∀ (l acc : List (List Char)), ∀ x ∈ normSegsAux l acc,
    x ∈ l ∨ x ∈ acc := by
  intro l
  induction l with
  | nil =>
    intro acc x hx
    rw [normSegsAux] at hx
    exact Or.inr (List.mem_reverse.mp hx)
  | cons s rest ih =>
    intro acc x hx
    rw [normSegsAux] at hx
    split at hx
    · rcases ih acc x hx with h | h
      · exact Or.inl (List.mem_cons_of_mem _ h)
      · exact Or.inr h
    · split at hx
      · rcases ih (acc.drop 1) x hx with h | h
        · exact Or.inl (List.mem_cons_of_mem _ h)
        · exact Or.inr (List.mem_of_mem_drop h)
      · rcases ih (s :: acc) x hx with h | h
        · exact Or.inl (List.mem_cons_of_mem _ h)
        · rcases List.mem_cons.mp h with h | h
          · exact Or.inl (h ▸ List.mem_cons_self ..)
          · exact Or.inr h

theorem normSegsAux_clean : ∀ (l acc : List (List Char)),
    (∀ x ∈ acc, x ≠ ['.'] ∧ x ≠ ['.', '.']) →
    ∀ x ∈ normSegsAux l acc, x ≠ ['.'] ∧ x ≠ ['.', '.'] := by
  intro l
  induction l with
  | nil =>
    intro acc hacc x hx
    rw [normSegsAux] at hx
    exact hacc x (List.mem_reverse.mp hx)
  | cons s rest ih =>
    intro acc hacc x hx
    rw [normSegsAux] at hx
    split at hx
    · exact ih acc hacc x hx
    · split at hx
      · exact ih (acc.drop 1) (fun y hy => hacc y (List.mem_of_mem_drop hy)) x hx
      · refine ih (s :: acc) ?_ x hx
        intro y hy
        rcases List.mem_cons.mp hy with h | h
        · subst h
          exact ⟨by assumption, by assumption⟩
        · exact hacc y h

theorem normSegsAux_past_clean : ∀ (r p acc : List (List Char)),
    (∀ x ∈ r, x ≠ ['.'] ∧ x ≠ ['.', '.']) →
    normSegsAux (r ++ p) acc = normSegsAux p (r.reverse ++ acc) := by
  intro r
  induction r with
  | nil => intro p acc _; simp
  | cons s rs ih =>
    intro p acc h
    have hs := h s (List.mem_cons_self ..)
    rw [List.cons_append, normSegsAux, if_neg hs.1, if_neg hs.2,
      ih p (s :: acc) (fun y hy => h y (List.mem_cons_of_mem _ hy))]
    simp

theorem normSegsAux_no_dotdot : ∀ (p acc : List (List Char)),
    (∀ x ∈ p, x ≠ ['.', '.']) →
    normSegsAux p acc = acc.reverse ++ dropDots p := by
  intro p
  induction p with
  | nil => intro acc _; simp [normSegsAux, dropDots]
  | cons s rest ih =>
    intro acc h
    by_cases hdot : s = ['.']
    · rw [normSegsAux, if_pos hdot, dropDots, if_pos hdot,
        ih acc (fun y hy => h y (List.mem_cons_of_mem _ hy))]
    · rw [normSegsAux, if_neg hdot, if_neg (h s (List.mem_cons_self ..)), dropDots,
        if_neg hdot, ih (s :: acc) (fun y hy => h y (List.mem_cons_of_mem _ hy))]
      simp

theorem pathSegsAux_of_no_slash : ∀ (s cur : List Char), '/' ∉ s →
    cur.reverse ++ s ≠ [] → pathSegsAux s cur = [cur.reverse ++ s] := by
  intro s
  induction s with
  | nil =>
    intro cur _ hne
    rw [pathSegsAux, if_neg (by simpa [List.isEmpty_iff] using hne)]
    simp
  | cons c cs ih =>
    intro cur hs hne
    have hc : ¬ c = '/' := fun h => hs (h ▸ List.mem_cons_self ..)
    rw [pathSegsAux, if_neg hc, ih (c :: cur) (fun h => hs (List.mem_cons_of_mem _ h))
      (by simp)]
    simp

theorem joinSegs_append : ∀ (R D : List (List Char)), R ≠ [] → D ≠ [] →
    joinSegs (R ++ D) = joinSegs R ++ '/' :: joinSegs D := by
  intro R
  induction R with
  | nil => intro D h; exact absurd rfl h
  | cons s rs ih =>
    intro D _ hD
    cases rs with
    | nil =>
      cases D with
      | nil => exact absurd rfl hD
      | cons d ds => simp [joinSegs]
    | cons y tl =>
      show s ++ '/' :: joinSegs ((y :: tl) ++ D) =
        (s ++ '/' :: joinSegs (y :: tl)) ++ '/' :: joinSegs D
      rw [ih D (by simp) hD]
      simp

theorem pathSegs_joinSegs : ∀ (R : List (List Char)),
    (∀ x ∈ R, x ≠ [] ∧ '/' ∉ x) → pathSegsAux (joinSegs R) [] = R := by
  intro R
  induction R with
  | nil => intro _; rfl
  | cons s rs ih =>
    intro h
    have hs := h s (List.mem_cons_self ..)
    cases rs with
    | nil =>
      show pathSegsAux s [] = [s]
      rw [pathSegsAux_of_no_slash s [] hs.2 (by simpa using hs.1)]
      simp
    | cons y tl =>
      show pathSegsAux (s ++ '/' :: joinSegs (y :: tl)) [] = s :: y :: tl
      rw [pathSegsAux_append s (joinSegs (y :: tl)) [],
        pathSegsAux_of_no_slash s [] hs.2 (by simpa using hs.1),
        ih (fun x hx => h x (List.mem_cons_of_mem _ hx))]
      simp

/-- The stripped argument, resolved against the normalised root, has the
    root's segments followed by the argument's (dot-filtered) segments. -/
theorem pathResolve_segs (ws fp : String)
    (hnd : ∀ x ∈ pathSegs (stripLeadingSlashes fp), x ≠ ['.', '.']) :
    pathResolve (normalizeAbs ws) (stripLeadingSlashes fp) =
      ⟨'/' :: joinSegs (rootSegs ws ++ dropDots (pathSegs (stripLeadingSlashes fp)))⟩ := by
  have hRok : ∀ x ∈ rootSegs ws, x ≠ [] ∧ '/' ∉ x := by
    intro x hx
    rcases normSegsAux_mem (pathSegs ws) [] x hx with h | h
    · exact pathSegsAux_mem_ok ws.data [] (by simp) x h
    · simp at h
  have hRclean : ∀ x ∈ rootSegs ws, x ≠ ['.'] ∧ x ≠ ['.', '.'] :=
    normSegsAux_clean (pathSegs ws) [] (by simp)
  rw [pathResolve, if_neg (by rw [stripLeadingSlashes_not_abs]; simp)]
  show normalizeAbs (normalizeAbs ws ++ "/" ++ stripLeadingSlashes fp) = _
  have hdata : (normalizeAbs ws ++ "/" ++ stripLeadingSlashes fp).data =
      '/' :: (joinSegs (rootSegs ws) ++ '/' :: (stripLeadingSlashes fp).data) := by
    rw [strData_append, strData_append]
    show ('/' :: joinSegs (rootSegs ws)) ++ ['/'] ++ (stripLeadingSlashes fp).data = _
    simp
  rw [normalizeAbs]
  show (⟨'/' :: joinSegs (normSegsAux
      (pathSegsAux (normalizeAbs ws ++ "/" ++ stripLeadingSlashes fp).data []) [])⟩ : String) = _
  rw [hdata]
  rw [show pathSegsAux ('/' :: (joinSegs (rootSegs ws) ++ '/' ::
      (stripLeadingSlashes fp).data)) [] =
    pathSegsAux (joinSegs (rootSegs ws) ++ '/' :: (stripLeadingSlashes fp).data) [] from by
      rw [pathSegsAux]; simp]
  rw [pathSegsAux_append, pathSegs_joinSegs (rootSegs ws) hRok]
  rw [normSegsAux_past_clean (rootSegs ws) _ [] hRclean]
  rw [show pathSegsAux (stripLeadingSlashes fp).data [] =
    pathSegs (stripLeadingSlashes fp) from rfl]
  rw [normSegsAux_no_dotdot _ _ hnd]
  simp

/-- Acceptance: with a non-root workspace and no `..` segments in the
    argument, the call always succeeds. -/
theorem resolvePathInWorkspace_accepts (ws fp : String)
    (hroot : rootSegs ws ≠ [])
    (hnd : ∀ x ∈ pathSegs (stripLeadingSlashes fp), x ≠ ['.', '.']) :
    accepts (resolvePathInWorkspace ws fp) = true := by
  have hres := pathResolve_segs ws fp hnd
  rw [resolvePathInWorkspace]
  cases hD : dropDots (pathSegs (stripLeadingSlashes fp)) with
  | nil =>
    have heq : pathResolve (normalizeAbs ws) (stripLeadingSlashes fp) = normalizeAbs ws := by
      rw [hres, hD]
      simp [normalizeAbs, rootSegs]
    rw [if_pos (by simp [heq])]
    rfl
  | cons d ds =>
    have hsw : jsStartsWith (pathResolve (normalizeAbs ws) (stripLeadingSlashes fp))
        (normalizeAbs ws ++ "/") = true := by
      rw [hres, hD]
      show ((normalizeAbs ws ++ "/").data).isPrefixOf
        ('/' :: joinSegs (rootSegs ws ++ d :: ds)) = true
      rw [joinSegs_append (rootSegs ws) (d :: ds) hroot (by simp)]
      rw [strData_append]
      rw [show (normalizeAbs ws).data = '/' :: joinSegs (rootSegs ws) from rfl]
      rw [ List.isPrefixOf_iff_prefix]
      exact ⟨joinSegs (d :: ds), by simp⟩
    rw [if_pos (by simp [hsw])]
    rfl

/-- C10: the engine's `resolvePathInWorkspace` strips every leading slash,
    so an absolute path such as `/etc/passwd` is silently reinterpreted as
    workspace-relative — it resolves to `<root>/etc/passwd` and is accepted
    (first conjunct, and in general every argument without `..` segments is
    accepted whenever the workspace root is not `/`); the security error is
    raised only when the stripped argument's resolution escapes the root
    (third conjunct). -/
theorem resolvePathInWorkspace_reinterprets_absolute :
    resolvePathInWorkspace "/workspace" "/etc/passwd" = Except.ok "/workspace/etc/passwd" ∧
    (∀ ws fp, rootSegs ws ≠ [] →
      (∀ x ∈ pathSegs (stripLeadingSlashes fp), x ≠ ['.', '.']) →
      accepts (resolvePathInWorkspace ws fp) = true) ∧
    (∀ ws fp e, resolvePathInWorkspace ws fp = Except.error e →
      insideWorkspace (normalizeAbs ws)
        (pathResolve (normalizeAbs ws) (stripLeadingSlashes fp)) = false) := by
  refine ⟨by decide, resolvePathInWorkspace_accepts, ?_⟩
  intro ws fp e herr
  rw [resolvePathInWorkspace] at herr
  split at herr
  · cases herr
  · rename_i hcond
    simp only [insideWorkspace]
    simpa using hcond

/-- C10 witness: `/etc/passwd` against root `/ws` is accepted. -/
theorem resolvePathInWorkspace_reinterprets_absolute_witness :
    accepts (resolvePathInWorkspace "/ws" "/etc/passwd") = true :=
  resolvePathInWorkspace_reinterprets_absolute.2.1 "/ws" "/etc/passwd"
    (by decide) (by decide)

end IsoCode
